import Mathlib

/-!
Verification of the diff-to-highlight-range pipeline of highlight-undo.nvim.

JavaScript strings are modelled as lists of UTF-16 code units (`JStr`):
`s.length`, `s.substring`, `s[i]` index code units, while `for (const c of s)`
iterates code points (pairing surrogates).  All definitions below are shallow
embeddings of the TypeScript sources under `src/`.
-/

/-- A JavaScript string: its sequence of UTF-16 code units. -/
abbrev JStr := List Nat

namespace JsStr

/-- `s.substring(a, b)`: clamps both indices to `[0, length]` and swaps them
when `a > b` (ECMAScript semantics). -/
def substring (s : JStr) (a b : Nat) : JStr :=
  let a' := min a s.length
  let b' := min b s.length
  (s.take (max a' b')).drop (min a' b')

/-- `s.substring(a)`: from `a` to the end of the string. -/
def substringFrom (s : JStr) (a : Nat) : JStr :=
  s.drop a

/-- UTF-16 high surrogate. -/
def isHighSurrogate (u : Nat) : Bool := 0xD800 ≤ u && u ≤ 0xDBFF

/-- UTF-16 low surrogate. -/
def isLowSurrogate (u : Nat) : Bool := 0xDC00 ≤ u && u ≤ 0xDFFF

/-- Code-point iteration (`for (const c of s)`): a high surrogate followed by
a low surrogate combines into one astral code point; any other unit (including
a lone surrogate) is its own code point. -/
def codePoints : JStr → List Nat
  | [] => []
  | [u] => [u]
  | u :: v :: rest =>
    if isHighSurrogate u && isLowSurrogate v then
      (0x10000 + (u - 0xD800) * 0x400 + (v - 0xDC00)) :: codePoints rest
    else u :: codePoints (v :: rest)

/-- UTF-8 byte length of one code point as produced by `TextEncoder` (a lone
surrogate is encoded as U+FFFD, which is 3 bytes, the same as any other code
point in `[0x800, 0x10000)`). -/
def utf8LenCp (cp : Nat) : Nat :=
  if cp < 0x80 then 1
  else if cp < 0x800 then 2
  else if cp < 0x10000 then 3
  else 4

/-- `new TextEncoder().encode(s).length`. -/
def utf8Length (s : JStr) : Nat :=
  ((codePoints s).map utf8LenCp).sum

/-- Number of lines of `s`, i.e. `s.split("\n").length`. -/
def lineCount (s : JStr) : Nat :=
  s.count 10 + 1

/-- `s.split("\n")`, written with structural fuel (`s.length` bounds the
number of separators) so that it evaluates by kernel reduction. -/
def splitNlAux : Nat → JStr → List JStr
  | 0, s => [s]
  | fuel + 1, s =>
    if s.indexOf 10 < s.length then
      s.take (s.indexOf 10) :: splitNlAux fuel (s.drop (s.indexOf 10 + 1))
    else [s]

def splitNl (s : JStr) : List JStr :=
  splitNlAux s.length s

end JsStr

/-! ## Text-Coordinate Codec (`core/encoding.ts`) -/

/-- `getByteLength(text)`: UTF-8 byte length of a string. -/
def getByteLength (text : JStr) : Nat := JsStr.utf8Length text

/-- `jsIndexToVimColumn(text, jsIndex)` from `core/encoding.ts` (the spec calls
it `charIndexToByteColumn`).  The index argument is an arbitrary JS number,
modelled as an integer. -/
def jsIndexToVimColumn (text : JStr) (jsIndex : Int) : Nat :=
  if jsIndex ≤ 0 then 1
  else if jsIndex ≥ text.length then getByteLength text + 1
  else getByteLength (text.take jsIndex.toNat) + 1

/-- The code-point walk of `vimColumnToJsIndex`: consume code points while the
accumulated byte count stays within the target, counting one step per code
point (written with a running target instead of a running byte count). -/
def walkCp : List Nat → Nat → Nat
  | [], _ => 0
  | cp :: rest, target =>
    if target < JsStr.utf8LenCp cp then 0
    else walkCp rest (target - JsStr.utf8LenCp cp) + 1

/-- `vimColumnToJsIndex(text, vimColumn)` from `core/encoding.ts` (the spec
calls it `byteColumnToCharIndex`).  Note that the walk advances `charIndex`
once per *code point* of the `for..of` loop. -/
def vimColumnToJsIndex (text : JStr) (vimColumn : Int) : Nat :=
  if vimColumn ≤ 1 then 0
  else
    let target := (vimColumn - 1).toNat
    if target ≥ (JsStr.utf8Length text) then text.length
    else walkCp (JsStr.codePoints text) target

/-! ## Data model (`core/range-computer.ts`) -/

inductive ChangeType where
  | added
  | removed
deriving DecidableEq, Repr

structure Col where
  start : Nat
  stop : Nat
deriving DecidableEq, Repr

/-- The central value type.  `col.stop` embeds the source's `col.end` (`end`
is a keyword in Lean). -/
structure Range where
  lnum : Nat
  lineText : JStr
  col : Col
  matchText : JStr
  changeType : ChangeType
deriving DecidableEq, Repr

/-- An edit-script segment (`Diff.Change`); the optional `added`/`removed`
flags are embedded as booleans. -/
structure Change where
  value : JStr
  count : Nat
  added : Bool := false
  removed : Bool := false
deriving DecidableEq, Repr

/-! ## Range Computer (`core/range-computer.ts`) -/

/-- `getLineNumber(code, index)`: 1-based line of character index `index`. -/
def getLineNumber (code : JStr) (index : Nat) : Nat :=
  JsStr.lineCount (code.take index)

/-- `getStartPositionInLine(code, index)`: index of the last `\n` before
`index`, or `none` for the source's `-1`. -/
def getStartPositionInLine (code : JStr) (index : Nat) : Option Nat :=
  let pre := code.take index
  if 10 ∈ pre then some (pre.length - 1 - pre.reverse.indexOf 10) else none

/-- `getColumnPosition` / `getFirstLineStartColumn`: both return `codeIndex`
when there is no preceding newline and `codeIndex - startPos - 1` otherwise. -/
def getColumnPosition (codeIndex : Nat) (startPosInCurrentLine : Option Nat) : Nat :=
  match startPosInCurrentLine with
  | none => codeIndex
  | some p => codeIndex - p - 1

/-- `createRange` from `core/range-computer.ts`. -/
def createRange (lnum : Nat) (lineText : JStr) (text : JStr) (isFirstLine : Bool)
    (firstLineStartCol : Nat) (changeType : ChangeType) : Option Range :=
  if text = [] then none
  else
    let col := if isFirstLine then Col.mk firstLineStartCol (firstLineStartCol + text.length)
               else Col.mk 0 text.length
    some { lnum, lineText, col, matchText := text, changeType }

/-- The loop body of `processMultiLineChange`: walk the `\n`-split parts,
skipping an empty trailing part, advancing `lnum` once per part. -/
def processParts (lines : List JStr) (changeType : ChangeType)
    (firstLineStartCol : Nat) :
    List JStr → Nat → Bool → List Range
  | [], _, _ => []
  | text :: rest, lnum, isFirstLine =>
    let currentLineText := (lines.getD (lnum - 1) [])
    let here :=
      if rest = [] ∧ text = [] then []
      else
        match createRange lnum currentLineText text isFirstLine firstLineStartCol changeType with
        | some r => [r]
        | none => []
    here ++ processParts lines changeType firstLineStartCol rest (lnum + 1) false

/-- `processMultiLineChange`. -/
def processMultiLineChange (change : Change) (targetCode : JStr) (codeIndex : Nat)
    (changeType : ChangeType) : List Range :=
  let lnum := getLineNumber targetCode codeIndex
  let startPos := getStartPositionInLine targetCode codeIndex
  let firstLineStartCol := getColumnPosition codeIndex startPos
  let splitLines := JsStr.splitNl change.value
  processParts (JsStr.splitNl targetCode) changeType firstLineStartCol splitLines lnum true

/-- `processSingleLineChange`. -/
def processSingleLineChange (change : Change) (targetCode : JStr) (codeIndex : Nat)
    (changeType : ChangeType) : List Range :=
  let lnum := getLineNumber targetCode codeIndex
  let lines := JsStr.splitNl targetCode
  let currentLineText := lines.getD (lnum - 1) []
  let startPos := getStartPositionInLine targetCode codeIndex
  let col := getColumnPosition codeIndex startPos
  [{ lnum, lineText := currentLineText,
     col := Col.mk col (col + change.value.length),
     matchText := change.value, changeType }]

/-- `processChange`. -/
def processChange (change : Change) (targetCode : JStr) (codeIndex : Nat)
    (changeType : ChangeType) : List Range :=
  if 10 ∈ change.value then processMultiLineChange change targetCode codeIndex changeType
  else processSingleLineChange change targetCode codeIndex changeType

/-- The fold of `computeRanges` over the edit script, carrying `codeIndex`. -/
def computeRangesLoop (targetCode : JStr) (changeType : ChangeType) :
    List Change → Nat → List Range
  | [], _ => []
  | change :: rest, codeIndex =>
    let here :=
      if (match changeType with
          | ChangeType.added => change.added
          | ChangeType.removed => change.removed) then
        processChange change targetCode codeIndex changeType
      else []
    let skip :=
      match changeType with
      | ChangeType.added => change.removed
      | ChangeType.removed => change.added
    let codeIndex' := if skip then codeIndex else codeIndex + change.value.length
    here ++ computeRangesLoop targetCode changeType rest codeIndex'

/-- `computeRanges` from `core/range-computer.ts`. -/
def computeRanges (changes : List Change) (beforeCode afterCode : JStr)
    (changeType : ChangeType) : List Range :=
  let targetCode := match changeType with
    | ChangeType.removed => beforeCode
    | ChangeType.added => afterCode
  computeRangesLoop targetCode changeType changes 0

/-! ## `fillRangeGaps` (`core/utils.ts`) -/

/-- `fillRangeGaps` from `core/utils.ts`: expands interior column-0 ranges to
full-line spans (leaving `matchText` as it was), passes other in-region and
boundary ranges through, and drops everything else. -/
def fillRangeGaps (ranges : List Range) (aboveLine belowLine : Nat) : List Range :=
  ranges.foldr
    (fun range acc =>
      if aboveLine < range.lnum ∧ range.lnum < belowLine ∧ range.col.start = 0 then
        { range with col := Col.mk 0 range.lineText.length } :: acc
      else if aboveLine < range.lnum ∧ range.lnum < belowLine ∧ range.col.start ≠ 0 then
        range :: acc
      else if range.lnum = aboveLine ∨ range.lnum = belowLine then
        range :: acc
      else acc)
    []

/-! ## Heuristic strategy (`core/heuristic-strategy.ts`) -/

inductive ChangeSize where
  | tiny
  | small
  | medium
  | large
deriving DecidableEq, Repr

inductive DisplayStrategy where
  | character
  | word
  | line
  | block
deriving DecidableEq, Repr

structure Thresholds where
  tiny : Nat
  small : Nat
  medium : Nat
deriving DecidableEq, Repr

def DEFAULT_THRESHOLDS : Thresholds := ⟨5, 20, 100⟩

/-- `DEFAULT_STRATEGIES`. -/
def DEFAULT_STRATEGIES : ChangeSize → DisplayStrategy
  | ChangeSize.tiny => DisplayStrategy.character
  | ChangeSize.small => DisplayStrategy.word
  | ChangeSize.medium => DisplayStrategy.line
  | ChangeSize.large => DisplayStrategy.block

/-- `evaluateChangeSize(ranges, thresholds)`. -/
def evaluateChangeSize (ranges : List Range) (thresholds : Thresholds) : ChangeSize :=
  let totalChars := (ranges.map (fun r => r.matchText.length)).sum
  if totalChars ≤ thresholds.tiny then ChangeSize.tiny
  else if totalChars ≤ thresholds.small then ChangeSize.small
  else if totalChars ≤ thresholds.medium then ChangeSize.medium
  else ChangeSize.large

/-- `selectDisplayStrategy(size, strategies)`: the `Partial Record` argument is
an `Option`-valued map, `?? DEFAULT_STRATEGIES[size]` is `getD`. -/
def selectDisplayStrategy (size : ChangeSize)
    (strategies : ChangeSize → Option DisplayStrategy) : DisplayStrategy :=
  (strategies size).getD (DEFAULT_STRATEGIES size)

/-- The ordering `character < word < line < block` used by the spec. -/
def strategyOrd : DisplayStrategy → Nat
  | DisplayStrategy.character => 0
  | DisplayStrategy.word => 1
  | DisplayStrategy.line => 2
  | DisplayStrategy.block => 3

/-! ## Diff Engine (`core/diff-optimizer.ts`) -/

structure LineInfo where
  aboveLine : Nat
  belowLine : Nat
deriving DecidableEq, Repr

structure DiffResult where
  changes : List Change
  lineInfo : LineInfo
deriving DecidableEq, Repr

/-- Truncation to a signed 32-bit integer (the `| 0` coercion). -/
def toInt32 (n : Int) : Int :=
  (n + 2 ^ 31) % 2 ^ 32 - 2 ^ 31

/-- One step of the rolling hash: `h = ((h << 5) - h) + charCode; h |= 0`.
`h << 5` itself operates on 32 bits. -/
def hashStep (h : Int) (c : Nat) : Int :=
  toInt32 (toInt32 (h * 32) - h + c)

/-- The cache-key hash over the first 100 code units. -/
def cacheHash (s : JStr) : Int :=
  (s.take 100).foldl hashStep 0

/-- `getCacheKey(before, after)` (the two hashes joined with "_"). -/
def getCacheKey (before after : JStr) : Int × Int :=
  (cacheHash before, cacheHash after)

/-- `isSimpleInsertion`. -/
def isSimpleInsertion (before after : JStr) : Bool :=
  before.isPrefixOf after || before.isSuffixOf after

/-- `isSimpleDeletion`. -/
def isSimpleDeletion (before after : JStr) : Bool :=
  after.isPrefixOf before || after.isSuffixOf before

/-- `handleSimpleInsertion`. -/
def handleSimpleInsertion (before after : JStr) : DiffResult :=
  if before.isPrefixOf after then
    let added := after.drop before.length
    let position := before.length
    let changes := [⟨before, before.length, false, false⟩,
                    ⟨added, added.length, true, false⟩]
    let lineNumber := JsStr.lineCount (before.take position)
    ⟨changes, ⟨lineNumber, lineNumber + JsStr.lineCount added⟩⟩
  else
    let added := after.take (after.length - before.length)
    let changes := [⟨added, added.length, true, false⟩,
                    ⟨before, before.length, false, false⟩]
    let lineNumber := JsStr.lineCount (before.take 0)
    ⟨changes, ⟨lineNumber, lineNumber + JsStr.lineCount added⟩⟩

/-- `handleSimpleDeletion`. -/
def handleSimpleDeletion (before after : JStr) : DiffResult :=
  if after.isPrefixOf before then
    let removed := before.drop after.length
    let position := after.length
    let changes := [⟨after, after.length, false, false⟩,
                    ⟨removed, removed.length, false, true⟩]
    let lineNumber := JsStr.lineCount (after.take position)
    ⟨changes, ⟨lineNumber, lineNumber⟩⟩
  else
    let removed := before.take (before.length - after.length)
    let changes := [⟨removed, removed.length, false, true⟩,
                    ⟨after, after.length, false, false⟩]
    let lineNumber := JsStr.lineCount (after.take 0)
    ⟨changes, ⟨lineNumber, lineNumber⟩⟩

/-- `calculateDiff(before, after, threshold)` of `createDiffOptimizer`.
The `diff` npm library's `diffChars`/`diffLines` are external collaborators
and are passed in as function arguments; `cache` is the optimizer's mutable
cache, passed explicitly (an association list in insertion order).  In the
general branch the source dereferences `lineChanges[0].count!`, which throws
on an empty list; that unreachable case is embedded as `none`. -/
def calculateDiff (diffChars diffLines : JStr → JStr → List Change)
    (cache : List ((Int × Int) × DiffResult))
    (before after : JStr) (thresholdLine thresholdChar : Nat) : Option DiffResult :=
  if before = after then none
  else
    let cacheKey := getCacheKey before after
    match cache.lookup cacheKey with
    | some cached => some cached
    | none =>
      let changeCharCount := (before.length : Int) - after.length |>.natAbs
      let changeLineCount := (JsStr.lineCount before : Int) - JsStr.lineCount after |>.natAbs
      if changeCharCount > thresholdChar ∨ changeLineCount > thresholdLine then none
      else if isSimpleInsertion before after then some (handleSimpleInsertion before after)
      else if isSimpleDeletion before after then some (handleSimpleDeletion before after)
      else
        let changes := diffChars before after
        let lineChanges := diffLines before after
        match lineChanges with
        | [] => none
        | above :: below' =>
          let aboveLine := above.count + 1
          let belowLine :=
            match below'.getLast? with
            | some below => JsStr.lineCount after - below.count + 1
            | none => aboveLine
          some ⟨changes, ⟨aboveLine, belowLine⟩⟩

/-! ## Range Adjuster (`core/range-adjuster.ts`) -/

/-- ECMAScript `\s` on one code unit. -/
def wsChar (c : Nat) : Bool :=
  c = 32 || c = 9 || c = 10 || c = 11 || c = 12 || c = 13 || c = 0xA0 ||
  c = 0x1680 || (0x2000 ≤ c && c ≤ 0x200A) || c = 0x2028 || c = 0x2029 ||
  c = 0x202F || c = 0x205F || c = 0x3000 || c = 0xFEFF

/-- `WORD_BOUNDARY_PATTERNS.punctuation`. -/
def punctChar (c : Nat) : Bool :=
  c = 46 || c = 44 || c = 59 || c = 58 || c = 33 || c = 63 || c = 39 ||
  c = 34 || c = 40 || c = 41 || c = 91 || c = 93 || c = 123 || c = 125 ||
  c = 60 || c = 62

/-- `WORD_BOUNDARY_PATTERNS.operators`. -/
def opChar (c : Nat) : Bool :=
  c = 43 || c = 45 || c = 42 || c = 47 || c = 37 || c = 61 || c = 60 ||
  c = 62 || c = 38 || c = 124 || c = 94 || c = 126

/-- `WORD_BOUNDARY_PATTERNS.cjk`. -/
def cjkChar (c : Nat) : Bool :=
  (0x4E00 ≤ c && c ≤ 0x9FFF) || (0x3040 ≤ c && c ≤ 0x309F) ||
  (0x30A0 ≤ c && c ≤ 0x30FF) || (0xAC00 ≤ c && c ≤ 0xD7AF)

def upperChar (c : Nat) : Bool := 65 ≤ c && c ≤ 90
def lowerChar (c : Nat) : Bool := 97 ≤ c && c ≤ 122
def digitChar (c : Nat) : Bool := 48 ≤ c && c ≤ 57
def letterChar (c : Nat) : Bool := upperChar c || lowerChar c

/-- `WORD_BOUNDARY_PATTERNS.wordChar`. -/
def wordChar (c : Nat) : Bool := letterChar c || digitChar c || c = 95

/-!
`text[i]` on an out-of-range index is `undefined`; `regex.test(undefined)`
coerces the argument to the string `"undefined"`.  The `Option`-lifted
character tests below bake in the value each pattern takes on `"undefined"`:
`/[a-z]/` and the word-character class match it (it contains lowercase
letters), every other pattern used by the adjuster does not.
-/

def optWs : Option Nat → Bool
  | some c => wsChar c
  | none => false

def optPunct : Option Nat → Bool
  | some c => punctChar c
  | none => false

def optOp : Option Nat → Bool
  | some c => opChar c
  | none => false

def optCjk : Option Nat → Bool
  | some c => cjkChar c
  | none => false

def optUpper : Option Nat → Bool
  | some c => upperChar c
  | none => false

def optLower : Option Nat → Bool
  | some c => lowerChar c
  | none => true

def optDigit : Option Nat → Bool
  | some c => digitChar c
  | none => false

def optLetter : Option Nat → Bool
  | some c => letterChar c
  | none => true

def optWordChar : Option Nat → Bool
  | some c => wordChar c
  | none => true

/-- `char === "_" || char === "-"` (false on `undefined` / `""`). -/
def isUnderscoreOrHyphen : Option Nat → Bool
  | some c => c = 95 || c = 45
  | none => false

/-- `adjacentChar !== "_" && adjacentChar !== "-"` (true on `""`). -/
def notUnderscoreOrHyphen : Option Nat → Bool
  | some c => !(c = 95 || c = 45)
  | none => true

/-- `adjustNewlineBoundaries` from `core/range-adjuster.ts`.  The
"end-of-previous-line marker" case sets both columns to
`Number.MAX_SAFE_INTEGER` (the extra `isEndOfLine` flag the source attaches is
outside the `Range` type and not modelled). -/
def adjustNewlineBoundaries (ranges : List Range) : List Range :=
  ranges.filterMap fun range =>
    if range.matchText.getLast? = some 10 then
      let adjustedText := range.matchText.dropLast
      if adjustedText = [] then none
      else some { range with
                  matchText := adjustedText
                  col := Col.mk range.col.start (range.col.stop - 1) }
    else if range.matchText.head? = some 10 ∧ range.lnum > 1 then
      let adjustedText := range.matchText.drop 1
      if adjustedText = [] then
        some { range with
               lnum := range.lnum - 1
               matchText := []
               col := Col.mk 9007199254740991 9007199254740991 }
      else
        some { range with
               matchText := adjustedText
               col := Col.mk 0 adjustedText.length }
    else some range

/-- `isWordBoundary(text, pos, direction)`; `left = true` is `"left"`.  The
callers never pass a negative `pos` (the `col.start - 1` call is guarded by
`col.start === 0 ||`), so `pos` is a natural number here. -/
def scanNext (text : JStr) (i : Nat) : Option Nat :=
  if i + 1 < text.length then text.get? (i + 1) else none

def scanPrev (text : JStr) (i : Nat) : Option Nat :=
  if 0 < i then text.get? (i - 1) else none

def boundaryAdjacent (text : JStr) (pos : Nat) (left : Bool) : Option Nat :=
  if left then scanNext text pos else scanPrev text pos

def isWordBoundary (text : JStr) (pos : Nat) (left : Bool) : Bool :=
  if text.length ≤ pos then true
  else
    if optWs (text.get? pos) || optPunct (text.get? pos) || optOp (text.get? pos) then true
    else if optCjk (text.get? pos) then true
    else if (boundaryAdjacent text pos left).isSome && left &&
        ((optLower (text.get? pos) && optUpper (boundaryAdjacent text pos left)) ||
         (optDigit (text.get? pos) && optLetter (boundaryAdjacent text pos left)) ||
         (optLetter (text.get? pos) && optDigit (boundaryAdjacent text pos left))) then true
    else if isUnderscoreOrHyphen (text.get? pos) &&
        notUnderscoreOrHyphen (boundaryAdjacent text pos left) then true
    else false

/-- The plain backward loop of `findWordBoundary(_, _, "backward")`, running
from index `i` down to `0`; falls off the loop with result `0`. -/
def backScanNormal (text : JStr) (i : Nat) : Nat :=
  if optWs (text.get? i) || optPunct (text.get? i) || optOp (text.get? i) then i + 1
  else if optCjk (text.get? i) && (scanNext text i).isSome && !optCjk (scanNext text i) then i + 1
  else if !optCjk (text.get? i) && (scanNext text i).isSome && optCjk (scanNext text i) then i + 1
  else if optUpper (text.get? i) && (scanPrev text i).isSome && optLower (scanPrev text i) then i
  else if (scanNext text i).isSome &&
      ((optDigit (text.get? i) && optLetter (scanNext text i)) ||
       (optLetter (text.get? i) && optDigit (scanNext text i))) then i + 1
  else if isUnderscoreOrHyphen (text.get? i) then i + 1
  else match i with
    | 0 => 0
    | j + 1 => backScanNormal text j

/-- The special camelCase backward loop of `findWordBoundary` (entered at
`start - 2` when `start` sits at a lowercase→uppercase transition). -/
def backScanCamel (text : JStr) (i : Nat) : Nat :=
  if optWs (text.get? i) || optPunct (text.get? i) || optOp (text.get? i) then i + 1
  else if optUpper (text.get? i) && (scanPrev text i).isSome && optLower (scanPrev text i) then i
  else if isUnderscoreOrHyphen (text.get? i) then i + 1
  else match i with
    | 0 => 0
    | j + 1 => backScanCamel text j

/-- `findWordBoundary(text, start, "backward")`. -/
def findWordBoundaryBackward (text : JStr) (start : Nat) : Nat :=
  if 0 < start ∧ start < text.length ∧ optUpper (text.get? start) = true ∧
      optLower (text.get? (start - 1)) = true then
    match start with
    | 0 => 0
    | 1 => 0
    | s + 2 => backScanCamel text s
  else
    match start with
    | 0 => 0
    | s + 1 => backScanNormal text s

/-- `findWordBoundary(text, start, "forward")`: scan right from `i`,
returning `text.length` when no boundary is found.  Written with structural
fuel (`text.length - i` steps remain) so that it evaluates by kernel
reduction; the fuel never runs out for the canonical call below. -/
def forwardScanAux (text : JStr) : Nat → Nat → Nat
  | 0, _ => text.length
  | fuel + 1, i =>
    if i < text.length then
      if optWs (text.get? i) || optPunct (text.get? i) || optOp (text.get? i) then i
      else if (!(scanPrev text i).isSome || !optCjk (scanPrev text i)) && optCjk (text.get? i) then i
      else if optUpper (text.get? i) && (scanPrev text i).isSome && optLower (scanPrev text i) then i
      else if (scanPrev text i).isSome &&
          ((optDigit (text.get? i) && optLetter (scanPrev text i)) ||
           (optLetter (text.get? i) && optDigit (scanPrev text i))) then i
      else if isUnderscoreOrHyphen (text.get? i) then i
      else forwardScanAux text fuel (i + 1)
    else text.length

def forwardScan (text : JStr) (i : Nat) : Nat :=
  forwardScanAux text (text.length - i) i

/-- The `while (checkPos >= 0 && /[a-z]/.test(lineText[checkPos])) checkPos--`
loop of `adjustWordBoundaries`, started at `checkPos = p`; returns the final
`checkPos + 1` (a natural number even when the loop ends at `-1`). -/
def scanLower (text : JStr) (p : Nat) : Nat :=
  if optLower (text.get? p) then
    match p with
    | 0 => 0
    | q + 1 => scanLower text q
  else p + 1

/-- The `while (checkStart > 0 && cjk.test(lineText[checkStart - 1]))` loop. -/
def cjkBack (text : JStr) (s : Nat) : Nat :=
  match s with
  | 0 => 0
  | q + 1 => if optCjk (text.get? q) then cjkBack text q else q + 1

/-- The `while (checkEnd < lineText.length && wordChar.test(...)) checkEnd++`
loop, with structural fuel as for `forwardScanAux`. -/
def wordRunEndAux (text : JStr) : Nat → Nat → Nat
  | 0, i => i
  | fuel + 1, i =>
    if i < text.length then
      if optWordChar (text.get? i) then wordRunEndAux text fuel (i + 1) else i
    else i

def wordRunEnd (text : JStr) (i : Nat) : Nat :=
  wordRunEndAux text (text.length - i) i

/-- `col.start === 0 || isWordBoundary(lineText, col.start - 1, "left")`. -/
def wordStartBoundary (r : Range) : Prop :=
  r.col.start = 0 ∨ isWordBoundary r.lineText (r.col.start - 1) true

/-- `col.end === lineText.length || isWordBoundary(lineText, col.end, "right")`. -/
def wordEndBoundary (r : Range) : Prop :=
  r.col.stop = r.lineText.length ∨ isWordBoundary r.lineText r.col.stop false

instance (r : Range) : Decidable (wordStartBoundary r) := by
  unfold wordStartBoundary; infer_instance

instance (r : Range) : Decidable (wordEndBoundary r) := by
  unfold wordEndBoundary; infer_instance

/-- `newStart` as first assigned in `adjustWordBoundaries`. -/
def wordNewStart0 (r : Range) : Nat :=
  if wordStartBoundary r then r.col.start
  else findWordBoundaryBackward r.lineText r.col.start

/-- `newEnd` as first assigned in `adjustWordBoundaries`. -/
def wordNewEnd0 (r : Range) : Nat :=
  if wordEndBoundary r then r.col.stop
  else forwardScan r.lineText r.col.stop

/-- `newStart` after the camelCase special case (scan back over the lowercase
run preceding an uppercase `col.start`, then search backward from there). -/
def wordNewStart1 (r : Range) : Nat :=
  if 0 < r.col.start ∧ optUpper (r.lineText.get? r.col.start) = true then
    if scanLower r.lineText (r.col.start - 1) < r.col.start then
      findWordBoundaryBackward r.lineText (scanLower r.lineText (r.col.start - 1))
    else wordNewStart0 r
  else wordNewStart0 r

/-- `lineText.substring(col.start, col.end).match(cjk)`. -/
def wordHasCjk (r : Range) : Prop :=
  (JsStr.substring r.lineText r.col.start r.col.stop).any cjkChar

instance (r : Range) : Decidable (wordHasCjk r) := by
  unfold wordHasCjk; infer_instance

/-- `newStart` after the CJK special case. -/
def wordNewStart2 (r : Range) : Nat :=
  if wordHasCjk r then cjkBack r.lineText (wordNewStart1 r) else wordNewStart1 r

/-- `newEnd` after the CJK special case. -/
def wordNewEnd2 (r : Range) : Nat :=
  if wordHasCjk r ∧ r.col.stop < r.lineText.length ∧
      optCjk (r.lineText.get? r.col.stop) = false then
    wordRunEnd r.lineText r.col.stop
  else wordNewEnd0 r

/-- The per-range body of `adjustWordBoundaries` (the source maps it over the
list); the intermediate `newStart`/`newEnd` assignments are split into the
`word*` helpers above. -/
def adjustWordBoundary1 (r : Range) : Range :=
  if r.matchText.length ≤ 1 then r
  else if wordStartBoundary r ∧ wordEndBoundary r then r
  else if r.matchText.length * 5 < wordNewEnd2 r - wordNewStart2 r then r
  else { r with
         col := Col.mk (wordNewStart2 r) (wordNewEnd2 r)
         matchText := JsStr.substring r.lineText (wordNewStart2 r) (wordNewEnd2 r) }

/-- `adjustWordBoundaries` from `core/range-adjuster.ts`. -/
def adjustWordBoundaries (ranges : List Range) : List Range :=
  ranges.map adjustWordBoundary1

/-- `lineText.search(/\s*$/)`: the leftmost index whose suffix is entirely
whitespace (the start of the maximal trailing whitespace run). -/
def searchTrailWs (text : JStr) : Nat :=
  text.length - (text.reverse.takeWhile wsChar).length

/-- The leading-indentation branch of `handleWhitespaceChanges` (returns
`none` when the branch does not produce a range and the source falls
through). -/
def handleWhitespaceIndent (range : Range) : Option Range :=
  if range.col.start = 0 then
    match range.lineText.findIdx? (fun c => !wsChar c) with
    | some contentStart =>
      if 0 < contentStart then
        some { range with
               col := Col.mk 0 contentStart
               matchText := range.lineText.take contentStart }
      else none
    | none => none
  else none

/-- The trailing-whitespace branch of `handleWhitespaceChanges`
(`contentEnd = lineText.search(/\s*$/)`). -/
def handleWhitespaceTrailing (range : Range) : Range :=
  if range.col.stop = range.lineText.length ∨
      (range.lineText.drop range.col.stop).all wsChar then
    if searchTrailWs range.lineText < range.col.stop then
      { range with
        col := Col.mk (searchTrailWs range.lineText) range.lineText.length
        matchText := range.lineText.drop (searchTrailWs range.lineText) }
    else range
  else range

/-- The per-range body of `handleWhitespaceChanges`. -/
def handleWhitespace1 (range : Range) : Range :=
  if !(range.matchText.all wsChar) then range
  else
    match handleWhitespaceIndent range with
    | some r => r
    | none => handleWhitespaceTrailing range

/-- `handleWhitespaceChanges` from `core/range-adjuster.ts`. -/
def handleWhitespaceChanges (ranges : List Range) : List Range :=
  ranges.map handleWhitespace1

/-- The per-range body of `detectAndAdjustFullLineChange`
(`startsAfterIndent` is `col.start > 0 && col.end === lineText.length`,
`textBefore` is `lineText.substring(0, col.start)`). -/
def detectFullLine1 (targetChangeType : ChangeType) (range : Range) : Range :=
  if range.changeType ≠ targetChangeType then range
  else if (0 < range.col.start ∧ range.col.stop = range.lineText.length) ∧
      (range.lineText.take range.col.start).all wsChar then
    { range with col := Col.mk 0 range.lineText.length, matchText := range.lineText }
  else range

/-- `detectAndAdjustFullLineChange` (shared by the `removed` and `addedamount`
wrappers `detectAndAdjustFullLineDeletion` / `detectAndAdjustFullLineAddition`). -/
def detectAndAdjustFullLineChange (ranges : List Range)
    (targetChangeType : ChangeType) : List Range :=
  ranges.map (detectFullLine1 targetChangeType)

/-- The sort comparator of `mergeOverlappingRanges`:
`(a, b) => a.lnum - b.lnum`, tie-broken by `a.col.start - b.col.start`
(a stable sort under this comparator). -/
def rangeLe (a b : Range) : Bool :=
  a.lnum < b.lnum || (a.lnum = b.lnum && a.col.start ≤ b.col.start)

/-- The fold of `mergeOverlappingRanges` over the sorted list. -/
def mergeLoop : Range → List Range → List Range
  | current, [] => [current]
  | current, next :: rest =>
    if current.lnum = next.lnum ∧ current.changeType = next.changeType ∧
        next.col.start ≤ current.col.stop then
      mergeLoop { current with
                  col := Col.mk current.col.start (max current.col.stop next.col.stop)
                  matchText := JsStr.substring current.lineText current.col.start
                    (max current.col.stop next.col.stop) } rest
    else current :: mergeLoop next rest

/-- `mergeOverlappingRanges` from `core/range-adjuster.ts`. -/
def mergeOverlappingRanges (ranges : List Range) : List Range :=
  if ranges.length ≤ 1 then ranges
  else
    match ranges.mergeSort rangeLe with
    | [] => []
    | c :: rest => mergeLoop c rest

/-! ## Highlight Command Executor (`application/highlight-command-executor.ts`)

The executor drives external collaborators (the editor command, the highlight
batcher, `setTimeout`).  Its behaviour is embedded as the sequence of
collaborator calls it issues, in issue order (`Promise.all([a, b])` issues
`a` strictly before `b`). -/

inductive Cmd where
  | undo
  | redo
deriving DecidableEq, Repr

/-- One observable collaborator call. -/
inductive Event where
  | applyHl (group : JStr) (ranges : List Range)
  | clearHl
  | execCmd (command : Cmd)
  | waitMs (ms : Nat)
deriving DecidableEq, Repr

/-- The configuration slice the executor reads. -/
structure ExecConfig where
  enabledAdded : Bool
  enabledRemoved : Bool
  highlightAdded : JStr
  highlightRemoved : JStr
  duration : Nat
  thresholdLine : Nat
  thresholdChar : Nat
deriving DecidableEq, Repr

/-- `convertRangesWithEncoding`. -/
def convertRangesWithEncoding (ranges : List Range) : List Range :=
  ranges.map fun range =>
    if range.changeType = ChangeType.removed ∧ range.lineText = [] then
      { range with col := Col.mk 0 0 }
    else
      let beforeText := range.lineText.take range.col.start
      let matchText := JsStr.substring range.lineText range.col.start range.col.stop
      let byteStart := getByteLength beforeText
      let byteEnd := byteStart + getByteLength matchText
      { range with col := Col.mk byteStart byteEnd }

/-- The `highlight` helper: apply, wait `duration`, clear (no events when the
range list is empty). -/
def highlightTrace (cfg : ExecConfig) (ranges : List Range) (group : JStr) :
    List Event :=
  if ranges.length = 0 then []
  else [Event.applyHl group (convertRangesWithEncoding ranges),
        Event.waitMs cfg.duration, Event.clearHl]

/-- `highlightAdditions`. -/
def highlightAdditionsTrace (cfg : ExecConfig) (changes : List Change)
    (beforeCode afterCode : JStr) (lineInfo : LineInfo) : List Event :=
  let addedRanges := computeRanges changes beforeCode afterCode ChangeType.added
  let filledRanges := fillRangeGaps addedRanges lineInfo.aboveLine lineInfo.belowLine
  highlightTrace cfg filledRanges cfg.highlightAdded

/-- `highlightRemovals`. -/
def highlightRemovalsTrace (cfg : ExecConfig) (changes : List Change)
    (beforeCode afterCode : JStr) (lineInfo : LineInfo) : List Event :=
  let removedRanges := computeRanges changes beforeCode afterCode ChangeType.removed
  let filledRanges := fillRangeGaps removedRanges lineInfo.aboveLine lineInfo.belowLine
  highlightTrace cfg filledRanges cfg.highlightRemoved

/-- `applyHighlights` (the mutate-then-show flow, after the command has
executed): additions first, then removals, each gated on its enabled flag. -/
def applyHighlightsTrace (cfg : ExecConfig) (diffResult : DiffResult)
    (preCode postCode : JStr) : List Event :=
  let hasAdditions := diffResult.changes.any (fun c => c.added)
  let hasRemovals := diffResult.changes.any (fun c => c.removed)
  (if hasAdditions ∧ cfg.enabledAdded then
    highlightAdditionsTrace cfg diffResult.changes preCode postCode diffResult.lineInfo
  else []) ++
  (if hasRemovals ∧ cfg.enabledRemoved then
    highlightRemovalsTrace cfg diffResult.changes preCode postCode diffResult.lineInfo
  else [])

/-- `applyHighlightsWithDelayedCommand` (the show-before-mutate flow):
apply removal highlights, wait `duration`, then
`Promise.all([denops.cmd(command), clearHighlights(...)])` — the command call
is issued strictly before the clear call. -/
def applyHighlightsWithDelayedCommandTrace (cfg : ExecConfig)
    (diffResult : DiffResult) (preCode postCode : JStr) (command : Cmd) :
    List Event :=
  if cfg.enabledRemoved then
    let removedRanges := computeRanges diffResult.changes preCode postCode ChangeType.removed
    let filledRanges := fillRangeGaps removedRanges
      diffResult.lineInfo.aboveLine diffResult.lineInfo.belowLine
    if 0 < filledRanges.length then
      [Event.applyHl cfg.highlightRemoved (convertRangesWithEncoding filledRanges),
       Event.waitMs cfg.duration, Event.execCmd command, Event.clearHl]
    else [Event.execCmd command]
  else [Event.execCmd command]

/-- `HighlightCommandExecutor.execute`: the full collaborator-call trace of
one invocation.  `precondOk` is the result of the `checkPreconditions` query,
`state` the stored snapshot pair (if any), and the diff optimizer dependency
is the same `calculateDiff` embedding as above. -/
def executeTrace (diffChars diffLines : JStr → JStr → List Change)
    (cache : List ((Int × Int) × DiffResult)) (cfg : ExecConfig)
    (precondOk : Bool) (state : Option (JStr × JStr)) (command : Cmd) :
    List Event :=
  if !precondOk then []
  else match state with
  | none => [Event.execCmd command]
  | some (preCode, postCode) =>
    match calculateDiff diffChars diffLines cache preCode postCode
        cfg.thresholdLine cfg.thresholdChar with
    | none => [Event.execCmd command]
    | some diffResult =>
      if command = Cmd.undo ∧ diffResult.changes.any (fun c => c.removed) then
        applyHighlightsWithDelayedCommandTrace cfg diffResult preCode postCode command
      else
        Event.execCmd command :: applyHighlightsTrace cfg diffResult preCode postCode

/-! ## Auxiliary definitions used by the theorems -/

/-- Total `matchText` length of a range list (the quantity summed by
`evaluateChangeSize`). -/
def totalMatchTextLength (ranges : List Range) : Nat :=
  (ranges.map (fun r => r.matchText.length)).sum

/-- The default value of the `strategies` parameter of
`selectDisplayStrategy` (every entry present). -/
def defaultStrategiesArg : ChangeSize → Option DisplayStrategy :=
  fun s => some (DEFAULT_STRATEGIES s)

/-- The string `"こんにちは"` (five 3-byte hiragana, all BMP). -/
def konnichiwa : JStr := "こんにちは".data.map Char.toNat

/-- Whether the string contains a surrogate pair (an astral character). -/
def hasSurrogatePair : JStr → Bool
  | u :: v :: rest =>
    (JsStr.isHighSurrogate u && JsStr.isLowSurrogate v) || hasSurrogatePair (v :: rest)
  | _ => false

/-- The string `"😀a"`: one astral emoji (a surrogate pair) then `a`. -/
def emojiText : JStr := [0xD83D, 0xDE00, 97]

/-- The well-formedness invariant of a `Range` (§3 of the spec):
`0 ≤ start ≤ end ≤ lineText.length` and `matchText` is the span's substring. -/
def RangeInv (r : Range) : Prop :=
  r.col.start ≤ r.col.stop ∧ r.col.stop ≤ r.lineText.length ∧
  r.matchText = JsStr.substring r.lineText r.col.start r.col.stop

instance (r : Range) : Decidable (RangeInv r) := by
  unfold RangeInv; infer_instance

/-- The line `"fooBarBazQux"`. -/
def fooBarBazQux : JStr := "fooBarBazQux".data.map Char.toNat

/-- The span `{4, 8}` (`"arBa"`) of `"fooBarBazQux"`: word-boundary
adjustment expands it to `{3, 9}`, and a second application expands that
output again to `{0, 9}`. -/
def cexWordRange : Range :=
  ⟨1, fooBarBazQux, ⟨4, 8⟩, JsStr.substring fooBarBazQux 4 8, ChangeType.added⟩

/-- A range on line 2 of a 3-line region whose span covers only part of its
line: gap-filling expands its columns but keeps the stale `matchText`. -/
def cexGapRange : Range :=
  ⟨2, [97, 98, 99], ⟨0, 1⟩, [97], ChangeType.removed⟩

/-- A range used to exhibit that `fillRangeGaps` keeps boundary-line ranges
even when `aboveLine > belowLine`. -/
def cexBoundsRange : Range :=
  ⟨3, [97], ⟨0, 1⟩, [97], ChangeType.removed⟩

/-- A diff collaborator that is never consulted by the scenarios below. -/
def noDiff : JStr → JStr → List Change := fun _ _ => []

/-- An executor configuration with everything enabled (duration 300ms,
default thresholds). -/
def cfgAllOn : ExecConfig :=
  ⟨true, true, "HlUndoAdded".data.map Char.toNat,
   "HlUndoRemoved".data.map Char.toNat, 300, 50, 1500⟩

/-- The snapshot pair of a removal-only change: `"ab"` before, `"a"` after. -/
def removalOnlyState : JStr × JStr :=
  ([97, 98], [97])

/-- Whether an event is a highlight-apply call. -/
def isApplyEvent : Event → Bool
  | Event.applyHl _ _ => true
  | _ => false

/-- Whether an event is an editor command-execute call. -/
def isExecEvent : Event → Bool
  | Event.execCmd _ => true
  | _ => false

/-! # Theorems -/

/-! ## C8: `charIndexToByteColumn` case analysis and byte lengths -/

/-- C8: for every text and index, `jsIndexToVimColumn` returns `1` when
`index ≤ 0`, `byteLength(text) + 1` when `index ≥ text.length`, and otherwise
`byteLength(text[0..index)) + 1` in UTF-8; concretely
`getByteLength("こんにちは") = 15` and
`jsIndexToVimColumn("こんにちは", 2) = 7`. -/
theorem charIndexToByteColumn_spec :
    (∀ (text : JStr) (jsIndex : Int),
      (jsIndex ≤ 0 → jsIndexToVimColumn text jsIndex = 1) ∧
      (jsIndex ≥ text.length → jsIndexToVimColumn text jsIndex = getByteLength text + 1) ∧
      (0 < jsIndex → jsIndex < text.length →
        jsIndexToVimColumn text jsIndex =
          getByteLength (text.take jsIndex.toNat) + 1)) ∧
    getByteLength konnichiwa = 15 ∧
    jsIndexToVimColumn konnichiwa 2 = 7 := by
  refine ⟨fun text jsIndex => ⟨fun h => ?_, fun h => ?_, fun h1 h2 => ?_⟩, by decide, by decide⟩
  · simp [jsIndexToVimColumn, h]
  · by_cases h0 : jsIndex ≤ 0
    · have hlen : (text.length : Int) ≤ 0 := le_trans h h0
      have : text.length = 0 := by exact_mod_cast le_antisymm (by exact_mod_cast hlen) (Nat.zero_le _)
      have htext : text = [] := List.length_eq_zero.mp this
      subst htext
      simp [jsIndexToVimColumn, h0, getByteLength, JsStr.utf8Length, JsStr.codePoints]
    · simp [jsIndexToVimColumn, h0, h]
  · have h0 : ¬ jsIndex ≤ 0 := by omega
    have hge : ¬ jsIndex ≥ (text.length : Int) := by omega
    simp [jsIndexToVimColumn, h0, hge]

/-- Witness for C8 at `text = "こんにちは"`, `index = 2`. -/
theorem charIndexToByteColumn_spec_witness :
    (0 : Int) < 2 ∧ (2 : Int) < konnichiwa.length ∧
    jsIndexToVimColumn konnichiwa 2 = getByteLength (konnichiwa.take (2 : Int).toNat) + 1 :=
  ⟨by decide, by decide,
   (charIndexToByteColumn_spec.1 konnichiwa 2).2.2 (by decide) (by decide)⟩

/-! ## C2: `calculateDiff` no-op and threshold guards -/

/-- C2: `calculateDiff` returns `null` when `before === after` (for any cache
state), and — starting from the optimizer's empty cache — returns `null`
whenever the character-count difference exceeds `threshold.char` or the
line-count difference exceeds `threshold.line`; in particular
`calculateDiff("a", "b".repeat(2000), \x7bline:50, char:1500\x7d)` is `null`. -/
theorem calculateDiff_null_spec :
    (∀ (dc dl : JStr → JStr → List Change) (cache : List ((Int × Int) × DiffResult))
       (before after : JStr) (tl tc : Nat),
      (before = after → calculateDiff dc dl cache before after tl tc = none) ∧
      (cache = [] →
        (tc < ((before.length : Int) - after.length).natAbs ∨
         tl < ((JsStr.lineCount before : Int) - JsStr.lineCount after).natAbs) →
        calculateDiff dc dl cache before after tl tc = none)) ∧
    (∀ dc dl : JStr → JStr → List Change,
      calculateDiff dc dl [] [98] (List.replicate 2000 97) 50 1500 = none) := by
  constructor
  · intro dc dl cache before after tl tc
    constructor
    · intro h
      simp [calculateDiff, h]
    · intro hc hthr
      subst hc
      by_cases heq : before = after
      · simp [calculateDiff, heq]
      · simp only [calculateDiff, if_neg heq, List.lookup_nil]
        rw [if_pos]
        omega
    
  · intro dc dl
    have h : ¬([98] : JStr) = List.replicate 2000 97 := by
      intro hh
      have hl := congrArg List.length hh
      rw [List.length_replicate] at hl
      simp at hl
    simp only [calculateDiff, if_neg h, List.lookup_nil]
    rw [if_pos]
    rw [List.length_replicate]
    left
    simp only [List.length_cons, List.length_nil]
    omega

/-- Witness for C2: the identical-strings case and the over-threshold case at
concrete inputs. -/
theorem calculateDiff_null_spec_witness :
    calculateDiff noDiff noDiff [] [97] [97] 50 1500 = none ∧
    calculateDiff noDiff noDiff [] [98] (List.replicate 2000 97) 50 1500 = none :=
  ⟨(calculateDiff_null_spec.1 noDiff noDiff [] [97] [97] 50 1500).1 rfl,
   (calculateDiff_null_spec.1 noDiff noDiff [] [98] (List.replicate 2000 97) 50 1500).2 rfl
     (by
       left
       rw [List.length_replicate]
       simp only [List.length_cons, List.length_nil]
       omega)⟩

/-! ## C7: monotonicity of size evaluation + strategy selection -/

/-- C7: under the default thresholds and default strategies, if one range
list's total `matchText` length is at most another's, the selected strategy
for the first is at most the one for the second in the ordering
`character < word < line < block`. -/
theorem heuristicStrategy_monotone :
    ∀ rs1 rs2 : List Range,
      totalMatchTextLength rs1 ≤ totalMatchTextLength rs2 →
      strategyOrd (selectDisplayStrategy (evaluateChangeSize rs1 DEFAULT_THRESHOLDS)
          defaultStrategiesArg) ≤
        strategyOrd (selectDisplayStrategy (evaluateChangeSize rs2 DEFAULT_THRESHOLDS)
          defaultStrategiesArg) := by
  intro rs1 rs2 h
  unfold totalMatchTextLength at h
  unfold evaluateChangeSize selectDisplayStrategy defaultStrategiesArg DEFAULT_THRESHOLDS
  simp only
  split_ifs <;>
    simp only [Option.getD_some, DEFAULT_STRATEGIES, strategyOrd] <;> omega

/-- Witness for C7 at two concrete lists (total lengths 1 and 30). -/
theorem heuristicStrategy_monotone_witness :
    totalMatchTextLength [cexGapRange] ≤ totalMatchTextLength [cexWordRange, cexWordRange] ∧
    strategyOrd (selectDisplayStrategy (evaluateChangeSize [cexGapRange] DEFAULT_THRESHOLDS)
        defaultStrategiesArg) ≤
      strategyOrd (selectDisplayStrategy
        (evaluateChangeSize [cexWordRange, cexWordRange] DEFAULT_THRESHOLDS)
        defaultStrategiesArg) :=
  ⟨by decide, heuristicStrategy_monotone [cexGapRange] [cexWordRange, cexWordRange] (by decide)⟩

/-! ## C3: `fillRangeGaps` boundary pass-through and interior expansion -/

/-- C3: `fillRangeGaps` returns every input range whose `lnum` equals
`aboveLine` or `belowLine` unchanged, and returns every input range strictly
between the two lines that starts at column 0 expanded to its full line. -/
theorem fillRangeGaps_spec :
    ∀ (ranges : List Range) (aboveLine belowLine : Nat) (r : Range), r ∈ ranges →
      ((r.lnum = aboveLine ∨ r.lnum = belowLine) →
        r ∈ fillRangeGaps ranges aboveLine belowLine) ∧
      (aboveLine < r.lnum → r.lnum < belowLine → r.col.start = 0 →
        { r with col := Col.mk 0 r.lineText.length } ∈
          fillRangeGaps ranges aboveLine belowLine) := by
  intro ranges aboveLine belowLine
  induction ranges with
  | nil => intro r hr; cases hr
  | cons hd tl ih =>
    intro r hr
    have hstep : fillRangeGaps (hd :: tl) aboveLine belowLine =
        (if aboveLine < hd.lnum ∧ hd.lnum < belowLine ∧ hd.col.start = 0 then
          { hd with col := Col.mk 0 hd.lineText.length } ::
            fillRangeGaps tl aboveLine belowLine
        else if aboveLine < hd.lnum ∧ hd.lnum < belowLine ∧ hd.col.start ≠ 0 then
          hd :: fillRangeGaps tl aboveLine belowLine
        else if hd.lnum = aboveLine ∨ hd.lnum = belowLine then
          hd :: fillRangeGaps tl aboveLine belowLine
        else fillRangeGaps tl aboveLine belowLine) := by
      simp [fillRangeGaps]
    rcases List.mem_cons.mp hr with heq | hmem
    · subst heq
      constructor
      · intro hb
        have h1 : ¬(aboveLine < r.lnum ∧ r.lnum < belowLine ∧ r.col.start = 0) := by
          rcases hb with hb | hb <;> omega
        have h2 : ¬(aboveLine < r.lnum ∧ r.lnum < belowLine ∧ r.col.start ≠ 0) := by
          rcases hb with hb | hb <;> (intro hcon; omega)
        rw [hstep, if_neg h1, if_neg h2, if_pos hb]
        exact List.mem_cons_self _ _
      · intro ha hb hc
        have h1 : aboveLine < r.lnum ∧ r.lnum < belowLine ∧ r.col.start = 0 :=
          ⟨ha, hb, hc⟩
        rw [hstep, if_pos h1]
        exact List.mem_cons_self _ _
    · have htail := ih r hmem
      constructor
      · intro hb
        have := htail.1 hb
        rw [hstep]
        split_ifs <;> simp [this]
      · intro ha hb hc
        have := htail.2 ha hb hc
        rw [hstep]
        split_ifs <;> simp [this]

/-- Witness for C3: a boundary range passes through and an interior column-0
range is expanded, at concrete inputs. -/
theorem fillRangeGaps_spec_witness :
    cexBoundsRange ∈ fillRangeGaps [cexBoundsRange, cexGapRange] 3 3 ∧
    { cexGapRange with col := Col.mk 0 cexGapRange.lineText.length } ∈
      fillRangeGaps [cexGapRange] 1 3 :=
  ⟨(fillRangeGaps_spec [cexBoundsRange, cexGapRange] 3 3 cexBoundsRange
      (by decide)).1 (Or.inl (by decide)),
   (fillRangeGaps_spec [cexGapRange] 1 3 cexGapRange (by decide)).2
     (by decide) (by decide) (by decide)⟩

/-! ## C10: `fillRangeGaps` drops out-of-region ranges -/

/-- C10 as stated is false: with `aboveLine = 3 > belowLine = 1`, a range on
line 3 is kept by the boundary branch yet violates
`aboveLine ≤ lnum ≤ belowLine`. -/
theorem fillRangeGaps_bounds_cex :
    fillRangeGaps [cexBoundsRange] 3 1 = [cexBoundsRange] ∧
    cexBoundsRange.lnum = 3 ∧ ¬(cexBoundsRange.lnum ≤ 1) := by
  refine ⟨by decide, by decide, by decide⟩

/-- C10 (amended): when `aboveLine ≤ belowLine`, every range in the output of
`fillRangeGaps` satisfies `aboveLine ≤ lnum ≤ belowLine` — ranges outside the
region are silently dropped. -/
theorem fillRangeGaps_bounds :
    ∀ (ranges : List Range) (aboveLine belowLine : Nat),
      aboveLine ≤ belowLine →
      ∀ r ∈ fillRangeGaps ranges aboveLine belowLine,
        aboveLine ≤ r.lnum ∧ r.lnum ≤ belowLine := by
  intro ranges aboveLine belowLine hab
  induction ranges with
  | nil => intro r hr; simp [fillRangeGaps] at hr
  | cons hd tl ih =>
    intro r hr
    have hstep : fillRangeGaps (hd :: tl) aboveLine belowLine =
        (if aboveLine < hd.lnum ∧ hd.lnum < belowLine ∧ hd.col.start = 0 then
          { hd with col := Col.mk 0 hd.lineText.length } ::
            fillRangeGaps tl aboveLine belowLine
        else if aboveLine < hd.lnum ∧ hd.lnum < belowLine ∧ hd.col.start ≠ 0 then
          hd :: fillRangeGaps tl aboveLine belowLine
        else if hd.lnum = aboveLine ∨ hd.lnum = belowLine then
          hd :: fillRangeGaps tl aboveLine belowLine
        else fillRangeGaps tl aboveLine belowLine) := by
      simp [fillRangeGaps]
    rw [hstep] at hr
    split_ifs at hr with h1 h2 h3
    · rcases List.mem_cons.mp hr with heq | hmem
      · subst heq; exact ⟨by simp; omega, by simp; omega⟩
      · exact ih r hmem
    · rcases List.mem_cons.mp hr with heq | hmem
      · subst heq; omega
      · exact ih r hmem
    · rcases List.mem_cons.mp hr with heq | hmem
      · subst heq; omega
      · exact ih r hmem
    · exact ih r hr

/-- Witness for the amended C10 at a concrete input: the out-of-region range
(line 3 with bounds 1..2) is dropped entirely. -/
theorem fillRangeGaps_bounds_witness :
    (1 : Nat) ≤ 2 ∧
    ∀ r ∈ fillRangeGaps [cexBoundsRange, cexGapRange] 1 2,
      1 ≤ r.lnum ∧ r.lnum ≤ 2 :=
  ⟨by decide, fillRangeGaps_bounds [cexBoundsRange, cexGapRange] 1 2 (by decide)⟩

/-! ## C5: byte-column / char-index round trip -/

lemma utf8LenCp_pos (cp : Nat) : 1 ≤ JsStr.utf8LenCp cp := by
  unfold JsStr.utf8LenCp
  split_ifs <;> omega

/-- On a string without surrogate pairs, the `for..of` iteration yields the
code units themselves. -/
lemma codePoints_eq_self :
    ∀ s : JStr, hasSurrogatePair s = false → JsStr.codePoints s = s
  | [], _ => rfl
  | [_], _ => rfl
  | u :: v :: rest, h => by
    have hsplit : (JsStr.isHighSurrogate u && JsStr.isLowSurrogate v) = false ∧
        hasSurrogatePair (v :: rest) = false := by
      have hh : hasSurrogatePair (u :: v :: rest) =
          ((JsStr.isHighSurrogate u && JsStr.isLowSurrogate v) ||
            hasSurrogatePair (v :: rest)) := rfl
      rw [hh] at h
      exact Bool.or_eq_false_iff.mp h
    have hrec := codePoints_eq_self (v :: rest) hsplit.2
    unfold JsStr.codePoints
    rw [if_neg (by simp [hsplit.1]), hrec]

/-- A prefix of a string without surrogate pairs has none either. -/
lemma hasSurrogatePair_take :
    ∀ (s : JStr) (k : Nat), hasSurrogatePair s = false →
      hasSurrogatePair (s.take k) = false := by
  intro s
  induction s with
  | nil => intro k _; simp [hasSurrogatePair]
  | cons u rest ih =>
    intro k h
    cases k with
    | zero => simp [hasSurrogatePair]
    | succ j =>
      rw [List.take_succ_cons]
      cases hj : rest.take j with
      | nil => simp [hasSurrogatePair]
      | cons w ws =>
        cases rest with
        | nil => simp at hj
        | cons w' rest' =>
          cases j with
          | zero => simp at hj
          | succ j' =>
            rw [List.take_succ_cons] at hj
            injection hj with hw hws
            subst hw
            have hh : hasSurrogatePair (u :: w' :: rest') =
                ((JsStr.isHighSurrogate u && JsStr.isLowSurrogate w') ||
                  hasSurrogatePair (w' :: rest')) := rfl
            rw [hh] at h
            have hsplit := Bool.or_eq_false_iff.mp h
            have htail := ih (j' + 1) hsplit.2
            rw [List.take_succ_cons, hws] at htail
            have hgoal : hasSurrogatePair (u :: w' :: ws) =
                ((JsStr.isHighSurrogate u && JsStr.isLowSurrogate w') ||
                  hasSurrogatePair (w' :: ws)) := rfl
            rw [hgoal, hsplit.1, htail]
            rfl

/-- The walk of `vimColumnToJsIndex` inverts prefix byte sums. -/
lemma walkCp_take (l : List Nat) :
    ∀ k, k < l.length → walkCp l (((l.take k).map JsStr.utf8LenCp).sum) = k := by
  induction l with
  | nil => intro k hk; simp at hk
  | cons c rest ih =>
    intro k hk
    cases k with
    | zero =>
      have h1 : 1 ≤ JsStr.utf8LenCp c := utf8LenCp_pos c
      simp only [List.take_zero, List.map_nil, List.sum_nil, walkCp]
      rw [if_pos (by omega)]
    | succ j =>
      have hsum : (((c :: rest).take (j + 1)).map JsStr.utf8LenCp).sum =
          JsStr.utf8LenCp c + ((rest.take j).map JsStr.utf8LenCp).sum := by
        rw [List.take_succ_cons]
        simp
      rw [hsum]
      have h1 : 1 ≤ JsStr.utf8LenCp c := utf8LenCp_pos c
      unfold walkCp
      rw [if_neg (by omega)]
      have heq : JsStr.utf8LenCp c + ((rest.take j).map JsStr.utf8LenCp).sum -
          JsStr.utf8LenCp c = ((rest.take j).map JsStr.utf8LenCp).sum := by omega
      rw [heq, ih j (by simpa using Nat.lt_of_succ_lt_succ hk)]

/-- Strict prefix byte sums are strictly below the total. -/
lemma take_map_sum_lt (l : List Nat) (k : Nat) (hk : k < l.length) :
    ((l.take k).map JsStr.utf8LenCp).sum < (l.map JsStr.utf8LenCp).sum := by
  conv_rhs => rw [← List.take_append_drop k l]
  rw [List.map_append, List.sum_append]
  cases hdrop : l.drop k with
  | nil =>
    have := congrArg List.length hdrop
    simp [List.length_drop] at this
    omega
  | cons d ds =>
    have h1 : 1 ≤ JsStr.utf8LenCp d := utf8LenCp_pos d
    simp only [List.map_cons, List.sum_cons]
    omega

lemma utf8Length_pos (s : JStr) (h : s ≠ []) : 1 ≤ JsStr.utf8Length s := by
  have hne : JsStr.codePoints s ≠ [] := by
    cases s with
    | nil => exact absurd rfl h
    | cons u rest =>
      cases rest with
      | nil => simp [JsStr.codePoints]
      | cons v rest' =>
        unfold JsStr.codePoints
        split <;> simp
  cases hcp : JsStr.codePoints s with
  | nil => exact absurd hcp hne
  | cons c cs =>
    unfold JsStr.utf8Length
    rw [hcp]
    simp only [List.map_cons, List.sum_cons]
    have := utf8LenCp_pos c
    omega

/-- C5 fails as stated: in `"😀a"` the index 2 is a valid character boundary
(the unit before it, `0xDE00`, is not a high surrogate, so no pair straddles
position 2), yet the round trip returns the code-point count 1, not 2. -/
theorem byteColumnToCharIndex_roundtrip_cex :
    (2 : Nat) ≤ emojiText.length ∧
    (JsStr.isHighSurrogate (emojiText.getD 1 0) &&
      JsStr.isLowSurrogate (emojiText.getD 2 0)) = false ∧
    vimColumnToJsIndex emojiText (jsIndexToVimColumn emojiText 2) = 1 := by
  refine ⟨by decide, by decide, by decide⟩

/-- C5 (amended): for text containing no surrogate pair (no astral character)
and any index `0 ≤ index ≤ text.length`,
`vimColumnToJsIndex(text, jsIndexToVimColumn(text, index))` recovers `index`. -/
theorem byteColumnToCharIndex_roundtrip :
    ∀ (text : JStr) (index : Nat),
      hasSurrogatePair text = false → index ≤ text.length →
      vimColumnToJsIndex text (jsIndexToVimColumn text index) = index := by
  intro text index hnp hle
  have hcp : JsStr.codePoints text = text := codePoints_eq_self text hnp
  rcases Nat.eq_zero_or_pos index with h0 | hpos
  · subst h0
    rw [jsIndexToVimColumn, if_pos (by norm_num)]
    rw [vimColumnToJsIndex, if_pos (by norm_num)]
  · rcases eq_or_lt_of_le hle with heq | hlt
    · have hne : text ≠ [] := by
        intro hnil
        subst hnil
        simp at heq
        omega
      have hbl : 1 ≤ getByteLength text := utf8Length_pos text hne
      rw [jsIndexToVimColumn, if_neg (by omega),
        if_pos (by omega)]
      rw [vimColumnToJsIndex, if_neg (by omega)]
      show (if (((getByteLength text + 1 : Nat) : Int) - 1).toNat ≥ JsStr.utf8Length text
            then text.length
            else walkCp (JsStr.codePoints text)
              (((getByteLength text + 1 : Nat) : Int) - 1).toNat) = index
      have htgt : (((getByteLength text + 1 : Nat) : Int) - 1).toNat = getByteLength text := by
        push_cast; omega
      rw [htgt, if_pos (show getByteLength text ≥ JsStr.utf8Length text from le_refl _)]
      omega
    · have htake1 : text.take ((index : Int)).toNat = text.take index := rfl
      have hbyte : getByteLength (text.take index) =
          ((text.take index).map JsStr.utf8LenCp).sum := by
        unfold getByteLength JsStr.utf8Length
        rw [codePoints_eq_self (text.take index) (hasSurrogatePair_take text index hnp)]
      have hbl1 : 1 ≤ getByteLength (text.take index) := by
        apply utf8Length_pos
        intro hnil
        have hlen := congrArg List.length hnil
        rw [List.length_take] at hlen
        simp only [List.length_nil] at hlen
        omega
      rw [jsIndexToVimColumn, if_neg (by omega),
        if_neg (by omega), htake1]
      rw [vimColumnToJsIndex, if_neg (by omega)]
      show (if (((getByteLength (text.take index) + 1 : Nat) : Int) - 1).toNat ≥
              JsStr.utf8Length text
            then text.length
            else walkCp (JsStr.codePoints text)
              (((getByteLength (text.take index) + 1 : Nat) : Int) - 1).toNat) = index
      have htgt : (((getByteLength (text.take index) + 1 : Nat) : Int) - 1).toNat =
          ((text.take index).map JsStr.utf8LenCp).sum := by
        rw [hbyte]; omega
      have hlt2 : ((text.take index).map JsStr.utf8LenCp).sum < JsStr.utf8Length text := by
        unfold JsStr.utf8Length
        rw [hcp]
        exact take_map_sum_lt text index hlt
      rw [htgt, if_neg (by omega)]
      rw [hcp]
      exact walkCp_take text index hlt

/-- Witness for the amended C5 at `"こんにちは"`, `index = 2`. -/
theorem byteColumnToCharIndex_roundtrip_witness :
    hasSurrogatePair konnichiwa = false ∧ 2 ≤ konnichiwa.length ∧
    vimColumnToJsIndex konnichiwa (jsIndexToVimColumn konnichiwa 2) = 2 :=
  ⟨by decide, by decide, byteColumnToCharIndex_roundtrip konnichiwa 2 (by decide) (by decide)⟩

/-! ## C4: `mergeOverlappingRanges` -/

lemma rangeLe_trans (a b c : Range) :
    rangeLe a b → rangeLe b c → rangeLe a c := by
  unfold rangeLe
  intro hab hbc
  simp only [Bool.or_eq_true, Bool.and_eq_true, decide_eq_true_eq] at *
  omega

lemma rangeLe_total (a b : Range) : rangeLe a b || rangeLe b a := by
  unfold rangeLe
  simp only [Bool.or_eq_true, Bool.and_eq_true, decide_eq_true_eq]
  omega

/-- The running maximum of `col.stop` values accumulated by `mergeLoop`. -/
def foldStop (l : List Range) (init : Nat) : Nat :=
  l.foldl (fun m x => max m x.col.stop) init

lemma foldStop_init_le (l : List Range) (init : Nat) : init ≤ foldStop l init := by
  induction l generalizing init with
  | nil => exact le_refl _
  | cons hd tl ih =>
    exact le_trans (le_max_left init hd.col.stop) (ih (max init hd.col.stop))

lemma foldStop_mem_le (l : List Range) (init : Nat) (x : Range) (hx : x ∈ l) :
    x.col.stop ≤ foldStop l init := by
  induction l generalizing init with
  | nil => cases hx
  | cons hd tl ih =>
    rcases List.mem_cons.mp hx with rfl | hmem
    · exact le_trans (le_max_right init x.col.stop) (foldStop_init_le tl _)
    · exact ih _ hmem

lemma foldStop_attained (l : List Range) (init : Nat) :
    foldStop l init = init ∨ ∃ x ∈ l, foldStop l init = x.col.stop := by
  induction l generalizing init with
  | nil => exact Or.inl rfl
  | cons hd tl ih =>
    rcases ih (max init hd.col.stop) with h | ⟨x, hx, hxe⟩
    · rcases max_choice init hd.col.stop with hm | hm
      · exact Or.inl (by simpa [foldStop, hm] using h)
      · exact Or.inr ⟨hd, List.mem_cons_self _ _, by simpa [foldStop, hm] using h⟩
    · exact Or.inr ⟨x, List.mem_cons_of_mem _ hx, hxe⟩

lemma perm_pair_eq {α : Type _} {l : List α} {a b : α} (h : l.Perm [a, b]) :
    l = [a, b] ∨ l = [b, a] := by
  have hlen := h.length_eq
  cases l with
  | nil => simp at hlen
  | cons x t =>
    cases t with
    | nil => simp at hlen
    | cons y t2 =>
      cases t2 with
      | cons z t3 => simp at hlen
      | nil =>
        have hx : x ∈ ([a, b] : List α) := h.mem_iff.mp (List.mem_cons_self x [y])
        rcases List.mem_cons.mp hx with rfl | hx2
        · left
          have h2 : ([y] : List α).Perm [b] := h.cons_inv
          have hy : y = b := by simpa using h2.mem_iff.mp (List.mem_cons_self y [])
          rw [hy]
        · have hx3 : x = b := by simpa using hx2
          subst hx3
          right
          have hswap : ([x, y] : List α).Perm [x, a] := h.trans (List.Perm.swap x a [])
          have h2 : ([y] : List α).Perm [a] := hswap.cons_inv
          have hy : y = a := by simpa using h2.mem_iff.mp (List.mem_cons_self y [])
          rw [hy]

/-- When every range shares the head's line and change type and consecutive
sorted spans touch, `mergeLoop` collapses everything into a single range whose
span end is the running maximum. -/
lemma mergeLoop_all_merge :
    ∀ (l : List Range) (current : Range),
      (∀ x ∈ l, x.lnum = current.lnum ∧ x.changeType = current.changeType) →
      List.Chain' (fun a b => b.col.start ≤ a.col.stop) (current :: l) →
      current.matchText =
        JsStr.substring current.lineText current.col.start current.col.stop →
      mergeLoop current l =
        [⟨current.lnum, current.lineText,
          Col.mk current.col.start (foldStop l current.col.stop),
          JsStr.substring current.lineText current.col.start
            (foldStop l current.col.stop),
          current.changeType⟩] := by
  intro l
  induction l with
  | nil =>
    intro current _ _ hm
    obtain ⟨ln, ltx, ⟨cs, ce⟩, mt, ct⟩ := current
    simp only [mergeLoop, foldStop, List.foldl_nil]
    simp only at hm
    rw [hm]
  | cons next rest ih =>
    intro current hshare hchain hm
    have hnext := hshare next (List.mem_cons_self _ _)
    have hrel : next.col.start ≤ current.col.stop := (List.chain'_cons.mp hchain).1
    have hcond : current.lnum = next.lnum ∧ current.changeType = next.changeType ∧
        next.col.start ≤ current.col.stop := ⟨hnext.1.symm, hnext.2.symm, hrel⟩
    have hstep : mergeLoop current (next :: rest) =
        mergeLoop { current with
          col := Col.mk current.col.start (max current.col.stop next.col.stop)
          matchText := JsStr.substring current.lineText current.col.start
            (max current.col.stop next.col.stop) } rest := by
      rw [mergeLoop, if_pos hcond]
    have hchain2 : List.Chain' (fun a b => b.col.start ≤ a.col.stop)
        ({ current with
          col := Col.mk current.col.start (max current.col.stop next.col.stop)
          matchText := JsStr.substring current.lineText current.col.start
            (max current.col.stop next.col.stop) } :: rest) := by
      cases rest with
      | nil => exact List.chain'_singleton _
      | cons h2 t2 =>
        have htl := (List.chain'_cons.mp hchain).2
        have hr2 : h2.col.start ≤ next.col.stop := (List.chain'_cons.mp htl).1
        exact List.chain'_cons.mpr
          ⟨le_trans hr2 (le_max_right _ _), (List.chain'_cons.mp htl).2⟩
    have hshare2 : ∀ x ∈ rest,
        x.lnum = ({ current with
          col := Col.mk current.col.start (max current.col.stop next.col.stop)
          matchText := JsStr.substring current.lineText current.col.start
            (max current.col.stop next.col.stop) } : Range).lnum ∧
        x.changeType = ({ current with
          col := Col.mk current.col.start (max current.col.stop next.col.stop)
          matchText := JsStr.substring current.lineText current.col.start
            (max current.col.stop next.col.stop) } : Range).changeType := by
      intro x hx
      exact hshare x (List.mem_cons_of_mem _ hx)
    have happ := ih _ hshare2 hchain2 rfl
    rw [hstep, happ]
    rfl

/-- C4: a nonempty list of ranges on one line with one change type (and
consistent `lineText` and `matchText`) whose sorted spans pairwise touch
merges into exactly one range spanning the minimum start to the maximum end,
with `matchText` re-derived from the line; and two ranges differing in line
or change type are never merged. -/
theorem mergeOverlappingRanges_spec :
    (∀ (rs : List Range) (L : Nat) (lt : JStr) (ct : ChangeType),
      rs ≠ [] →
      (∀ x ∈ rs, x.lnum = L ∧ x.lineText = lt ∧ x.changeType = ct) →
      (∀ x ∈ rs, x.matchText = JsStr.substring x.lineText x.col.start x.col.stop) →
      List.Chain' (fun a b => b.col.start ≤ a.col.stop) (rs.mergeSort rangeLe) →
      ∃ m : Range, mergeOverlappingRanges rs = [m] ∧
        m.lnum = L ∧ m.lineText = lt ∧ m.changeType = ct ∧
        (∀ x ∈ rs, m.col.start ≤ x.col.start ∧ x.col.stop ≤ m.col.stop) ∧
        (∃ x ∈ rs, x.col.start = m.col.start) ∧
        (∃ x ∈ rs, x.col.stop = m.col.stop) ∧
        m.matchText = JsStr.substring lt m.col.start m.col.stop) ∧
    (∀ r1 r2 : Range, (r1.lnum ≠ r2.lnum ∨ r1.changeType ≠ r2.changeType) →
      mergeOverlappingRanges [r1, r2] = [r1, r2] ∨
      mergeOverlappingRanges [r1, r2] = [r2, r1]) := by
  constructor
  · intro rs L lt ct hne hshare hinv hchain
    by_cases hlen : rs.length ≤ 1
    · cases rs with
      | nil => exact absurd rfl hne
      | cons r t =>
        cases t with
        | cons r2 t2 => simp at hlen
        | nil =>
          have hr := hshare r (List.mem_cons_self _ _)
          refine ⟨r, ?_, hr.1, hr.2.1, hr.2.2, ?_, ⟨r, List.mem_cons_self _ _, rfl⟩,
            ⟨r, List.mem_cons_self _ _, rfl⟩, ?_⟩
          · unfold mergeOverlappingRanges
            rw [if_pos hlen]
          · intro x hx
            rcases List.mem_cons.mp hx with rfl | hx2
            · exact ⟨le_refl _, le_refl _⟩
            · cases hx2
          · have := hinv r (List.mem_cons_self _ _)
            rw [this, hr.2.1]
    · push_neg at hlen
      have hperm : (rs.mergeSort rangeLe).Perm rs := List.mergeSort_perm rs rangeLe
      have hpw : (rs.mergeSort rangeLe).Pairwise (fun a b => rangeLe a b) :=
        List.sorted_mergeSort rangeLe_trans rangeLe_total rs
      cases hs : rs.mergeSort rangeLe with
      | nil =>
        have := hperm.length_eq
        rw [hs] at this
        simp at this
        omega
      | cons c restS =>
        rw [hs] at hperm hpw hchain
        have hmemc : c ∈ rs := hperm.mem_iff.mp (List.mem_cons_self _ _)
        have hshareS : ∀ x ∈ restS, x.lnum = c.lnum ∧ x.changeType = c.changeType := by
          intro x hx
          have hxr := hshare x (hperm.mem_iff.mp (List.mem_cons_of_mem _ hx))
          have hcr := hshare c hmemc
          exact ⟨hxr.1.trans hcr.1.symm, hxr.2.2.trans hcr.2.2.symm⟩
        have hmc : c.matchText =
            JsStr.substring c.lineText c.col.start c.col.stop := hinv c hmemc
        have happ := mergeLoop_all_merge restS c hshareS hchain hmc
        have hout : mergeOverlappingRanges rs = mergeLoop c restS := by
          unfold mergeOverlappingRanges
          rw [if_neg (by omega), hs]
        have hcr := hshare c hmemc
        refine ⟨⟨c.lnum, c.lineText,
          Col.mk c.col.start (foldStop restS c.col.stop),
          JsStr.substring c.lineText c.col.start (foldStop restS c.col.stop),
          c.changeType⟩,
          by rw [hout, happ], hcr.1, hcr.2.1, hcr.2.2, ?_, ?_, ?_, ?_⟩
        · intro x hx
          rcases List.mem_cons.mp (hperm.mem_iff.mpr hx) with rfl | hx2
          · exact ⟨le_refl _, foldStop_init_le _ _⟩
          · constructor
            · show c.col.start ≤ x.col.start
              have hle := (List.pairwise_cons.mp hpw).1 x hx2
              have hlnum : c.lnum = x.lnum := (hshareS x hx2).1.symm
              unfold rangeLe at hle
              simp only [Bool.or_eq_true, Bool.and_eq_true, decide_eq_true_eq] at hle
              omega
            · exact foldStop_mem_le _ _ _ hx2
        · exact ⟨c, hmemc, rfl⟩
        · rcases foldStop_attained restS c.col.stop with h | ⟨x, hx, hxe⟩
          · exact ⟨c, hmemc, h.symm⟩
          · exact ⟨x, hperm.mem_iff.mp (List.mem_cons_of_mem _ hx), hxe.symm⟩
        · show JsStr.substring c.lineText c.col.start (foldStop restS c.col.stop) =
            JsStr.substring lt c.col.start (foldStop restS c.col.stop)
          rw [hcr.2.1]
  · intro r1 r2 hdiff
    have hperm := List.mergeSort_perm [r1, r2] rangeLe
    have hncond12 : ¬(r1.lnum = r2.lnum ∧ r1.changeType = r2.changeType ∧
        r2.col.start ≤ r1.col.stop) := by
      rintro ⟨h1, h2, _⟩
      rcases hdiff with hd | hd <;> exact hd (by assumption)
    have hncond21 : ¬(r2.lnum = r1.lnum ∧ r2.changeType = r1.changeType ∧
        r1.col.start ≤ r2.col.stop) := by
      rintro ⟨h1, h2, _⟩
      rcases hdiff with hd | hd <;> exact hd (by symm; assumption)
    rcases perm_pair_eq hperm with hs | hs
    · left
      have hout : mergeOverlappingRanges [r1, r2] = mergeLoop r1 [r2] := by
        unfold mergeOverlappingRanges
        rw [if_neg (by simp), hs]
      rw [hout, mergeLoop, if_neg hncond12, mergeLoop]
    · right
      have hout : mergeOverlappingRanges [r1, r2] = mergeLoop r2 [r1] := by
        unfold mergeOverlappingRanges
        rw [if_neg (by simp), hs]
      rw [hout, mergeLoop, if_neg hncond21, mergeLoop]

/-- Witness for C4 at two touching spans of one line (and a non-merging pair
on different lines). -/
theorem mergeOverlappingRanges_spec_witness :
    (∃ m : Range,
      mergeOverlappingRanges
        [⟨1, [97, 98, 99, 100, 101, 102], ⟨0, 2⟩, [97, 98], ChangeType.added⟩,
         ⟨1, [97, 98, 99, 100, 101, 102], ⟨2, 4⟩, [99, 100], ChangeType.added⟩] = [m] ∧
      m.lnum = 1 ∧ m.lineText = [97, 98, 99, 100, 101, 102] ∧
      m.changeType = ChangeType.added ∧
      (∀ x ∈ [⟨1, [97, 98, 99, 100, 101, 102], ⟨0, 2⟩, [97, 98], ChangeType.added⟩,
              (⟨1, [97, 98, 99, 100, 101, 102], ⟨2, 4⟩, [99, 100], ChangeType.added⟩ : Range)],
        m.col.start ≤ x.col.start ∧ x.col.stop ≤ m.col.stop) ∧
      (∃ x ∈ [⟨1, [97, 98, 99, 100, 101, 102], ⟨0, 2⟩, [97, 98], ChangeType.added⟩,
              (⟨1, [97, 98, 99, 100, 101, 102], ⟨2, 4⟩, [99, 100], ChangeType.added⟩ : Range)],
        x.col.start = m.col.start) ∧
      (∃ x ∈ [⟨1, [97, 98, 99, 100, 101, 102], ⟨0, 2⟩, [97, 98], ChangeType.added⟩,
              (⟨1, [97, 98, 99, 100, 101, 102], ⟨2, 4⟩, [99, 100], ChangeType.added⟩ : Range)],
        x.col.stop = m.col.stop) ∧
      m.matchText = JsStr.substring [97, 98, 99, 100, 101, 102] m.col.start m.col.stop) ∧
    (mergeOverlappingRanges [cexGapRange, cexBoundsRange] = [cexGapRange, cexBoundsRange] ∨
     mergeOverlappingRanges [cexGapRange, cexBoundsRange] = [cexBoundsRange, cexGapRange]) :=
  ⟨mergeOverlappingRanges_spec.1 _ 1 [97, 98, 99, 100, 101, 102] ChangeType.added
    (by decide) (by decide) (by decide)
    (by
      rw [List.mergeSort_of_sorted (by decide)]
      exact List.chain'_cons.mpr ⟨by decide, List.chain'_singleton _⟩),
   mergeOverlappingRanges_spec.2 cexGapRange cexBoundsRange (Or.inl (by decide))⟩

/-! ## C6: word-boundary adjustment -/

lemma backScanNormal_le (text : JStr) : ∀ i, backScanNormal text i ≤ i + 1 := by
  intro i
  induction i with
  | zero =>
    unfold backScanNormal
    split_ifs <;> simp
  | succ j ih =>
    unfold backScanNormal
    split_ifs <;> try omega
    exact le_trans ih (by omega)

lemma backScanCamel_le (text : JStr) : ∀ i, backScanCamel text i ≤ i + 1 := by
  intro i
  induction i with
  | zero =>
    unfold backScanCamel
    split_ifs <;> simp
  | succ j ih =>
    unfold backScanCamel
    split_ifs <;> try omega
    exact le_trans ih (by omega)

lemma findWordBoundaryBackward_le (text : JStr) (s : Nat) :
    findWordBoundaryBackward text s ≤ s := by
  unfold findWordBoundaryBackward
  split_ifs with h
  · cases s with
    | zero => simp
    | succ s1 =>
      cases s1 with
      | zero => simp
      | succ s2 => exact le_trans (backScanCamel_le text s2) (by omega)
  · cases s with
    | zero => simp
    | succ s1 => exact backScanNormal_le text s1

lemma isWordBoundary_false_lt (text : JStr) (pos : Nat) (dir : Bool)
    (h : isWordBoundary text pos dir = false) : pos < text.length := by
  by_contra hc
  push_neg at hc
  unfold isWordBoundary at h
  rw [if_pos hc] at h
  exact absurd h (by simp)

lemma forwardScanAux_bounds (text : JStr) :
    ∀ (fuel i : Nat), i ≤ text.length →
      i ≤ forwardScanAux text fuel i ∧ forwardScanAux text fuel i ≤ text.length := by
  intro fuel
  induction fuel with
  | zero =>
    intro i hle
    exact ⟨hle, le_refl _⟩
  | succ f ih =>
    intro i hle
    by_cases hi : i < text.length
    · unfold forwardScanAux
      rw [if_pos hi]
      split_ifs <;> try exact ⟨le_refl _, le_of_lt hi⟩
      have hrec := ih (i + 1) (by omega)
      exact ⟨le_trans (Nat.le_succ i) hrec.1, hrec.2⟩
    · unfold forwardScanAux
      rw [if_neg hi]
      exact ⟨hle, le_refl _⟩

lemma forwardScan_bounds (text : JStr) (i : Nat) (h : i ≤ text.length) :
    i ≤ forwardScan text i ∧ forwardScan text i ≤ text.length :=
  forwardScanAux_bounds text (text.length - i) i h

lemma wordRunEndAux_bounds (text : JStr) :
    ∀ (fuel i : Nat),
      i ≤ wordRunEndAux text fuel i ∧
      (i ≤ text.length → wordRunEndAux text fuel i ≤ text.length) := by
  intro fuel
  induction fuel with
  | zero =>
    intro i
    exact ⟨le_refl _, fun h => h⟩
  | succ f ih =>
    intro i
    by_cases hi : i < text.length
    · unfold wordRunEndAux
      rw [if_pos hi]
      split_ifs
      · have hrec := ih (i + 1)
        exact ⟨le_trans (Nat.le_succ i) hrec.1, fun _ => hrec.2 (by omega)⟩
      · exact ⟨le_refl _, fun h => h⟩
    · unfold wordRunEndAux
      rw [if_neg hi]
      exact ⟨le_refl _, fun h => h⟩

lemma wordRunEnd_ge (text : JStr) (i : Nat) : i ≤ wordRunEnd text i :=
  (wordRunEndAux_bounds text (text.length - i) i).1

lemma wordRunEnd_le (text : JStr) (i : Nat) (h : i ≤ text.length) :
    wordRunEnd text i ≤ text.length :=
  (wordRunEndAux_bounds text (text.length - i) i).2 h

lemma scanLower_le (text : JStr) : ∀ p, scanLower text p ≤ p + 1 := by
  intro p
  induction p with
  | zero =>
    unfold scanLower
    split_ifs <;> simp
  | succ q ih =>
    unfold scanLower
    split_ifs <;> try omega
    exact le_trans ih (by omega)

lemma cjkBack_le (text : JStr) : ∀ s, cjkBack text s ≤ s := by
  intro s
  induction s with
  | zero => simp [cjkBack]
  | succ q ih =>
    unfold cjkBack
    split_ifs with h
    · exact le_trans ih (by omega)
    · exact le_refl _

lemma wordNewStart0_le (r : Range) : wordNewStart0 r ≤ r.col.start := by
  unfold wordNewStart0
  split_ifs
  · exact le_refl _
  · exact findWordBoundaryBackward_le _ _

lemma wordNewStart1_le (r : Range) : wordNewStart1 r ≤ r.col.start := by
  unfold wordNewStart1
  split_ifs with h1 h2
  · exact le_trans (findWordBoundaryBackward_le _ _) (le_of_lt h2)
  · exact wordNewStart0_le r
  · exact wordNewStart0_le r

lemma wordNewStart2_le (r : Range) : wordNewStart2 r ≤ r.col.start := by
  unfold wordNewStart2
  split_ifs
  · exact le_trans (cjkBack_le _ _) (wordNewStart1_le r)
  · exact wordNewStart1_le r

lemma wordNewEnd0_ge (r : Range) : r.col.stop ≤ wordNewEnd0 r := by
  unfold wordNewEnd0
  split_ifs with h
  · exact le_refl _
  · have h2 : ¬(r.col.stop = r.lineText.length ∨
        isWordBoundary r.lineText r.col.stop false = true) := h
    push_neg at h2
    have hb : isWordBoundary r.lineText r.col.stop false = false := by
      simpa using h2.2
    have := isWordBoundary_false_lt _ _ _ hb
    exact (forwardScan_bounds r.lineText r.col.stop (le_of_lt this)).1

lemma wordNewEnd0_le (r : Range) (h : r.col.stop ≤ r.lineText.length) :
    wordNewEnd0 r ≤ r.lineText.length := by
  unfold wordNewEnd0
  split_ifs with hb
  · exact h
  · exact (forwardScan_bounds r.lineText r.col.stop h).2

lemma wordNewEnd2_ge (r : Range) : r.col.stop ≤ wordNewEnd2 r := by
  unfold wordNewEnd2
  split_ifs
  · exact wordRunEnd_ge _ _
  · exact wordNewEnd0_ge r

lemma wordNewEnd2_le (r : Range) (h : r.col.stop ≤ r.lineText.length) :
    wordNewEnd2 r ≤ r.lineText.length := by
  unfold wordNewEnd2
  split_ifs
  · exact wordRunEnd_le _ _ h
  · exact wordNewEnd0_le r h

/-- C6 fails as stated: on the line `"fooBarBazQux"` with initial span
`{4, 8}`, one application yields span `{3, 9}` and a second application
expands that output again to `{0, 9}` (the camelCase special case re-fires),
so the adjustment is not idempotent. -/
theorem adjustWordBoundaries_idempotent_cex :
    adjustWordBoundaries [cexWordRange] =
      [⟨1, fooBarBazQux, ⟨3, 9⟩, JsStr.substring fooBarBazQux 3 9, ChangeType.added⟩] ∧
    adjustWordBoundaries (adjustWordBoundaries [cexWordRange]) =
      [⟨1, fooBarBazQux, ⟨0, 9⟩, JsStr.substring fooBarBazQux 0 9, ChangeType.added⟩] ∧
    adjustWordBoundaries (adjustWordBoundaries [cexWordRange]) ≠
      adjustWordBoundaries [cexWordRange] := by
  refine ⟨by decide, by decide, by decide⟩

/-- C6 (amended): `adjustWordBoundaries` maps each range independently; it
never shrinks a range (`lnum`, `lineText`, `changeType` are unchanged and the
output span contains the input span), never expands past 5× the original
`matchText` length (otherwise the range is returned unchanged), and is a
no-op on single-character ranges and on ranges already at word boundaries
(hence a second application changes only ranges whose output is not
boundary-aligned — full idempotence fails, see the counterexample). -/
theorem adjustWordBoundaries_spec :
    (∀ rs : List Range, adjustWordBoundaries rs = rs.map adjustWordBoundary1) ∧
    (∀ r : Range,
      ((adjustWordBoundary1 r).lnum = r.lnum ∧
       (adjustWordBoundary1 r).lineText = r.lineText ∧
       (adjustWordBoundary1 r).changeType = r.changeType ∧
       (adjustWordBoundary1 r).col.start ≤ r.col.start ∧
       r.col.stop ≤ (adjustWordBoundary1 r).col.stop) ∧
      (adjustWordBoundary1 r = r ∨
       (adjustWordBoundary1 r).col.stop - (adjustWordBoundary1 r).col.start ≤
         5 * r.matchText.length) ∧
      ((r.matchText.length ≤ 1 ∨ (wordStartBoundary r ∧ wordEndBoundary r)) →
        adjustWordBoundary1 r = r)) := by
  refine ⟨fun rs => rfl, fun r => ⟨?_, ?_, ?_⟩⟩
  · unfold adjustWordBoundary1
    split_ifs with h1 h2 h3
    · exact ⟨rfl, rfl, rfl, le_refl _, le_refl _⟩
    · exact ⟨rfl, rfl, rfl, le_refl _, le_refl _⟩
    · exact ⟨rfl, rfl, rfl, le_refl _, le_refl _⟩
    · exact ⟨rfl, rfl, rfl, wordNewStart2_le r, wordNewEnd2_ge r⟩
  · unfold adjustWordBoundary1
    split_ifs with h1 h2 h3
    · exact Or.inl rfl
    · exact Or.inl rfl
    · exact Or.inl rfl
    · right
      show wordNewEnd2 r - wordNewStart2 r ≤ 5 * r.matchText.length
      omega
  · intro h
    unfold adjustWordBoundary1
    rcases h with h | h
    · rw [if_pos h]
    · rcases le_or_lt r.matchText.length 1 with h1 | h1
      · rw [if_pos h1]
      · rw [if_neg (by omega), if_pos h]

/-- Witness for the amended C6 at the concrete range of the counterexample
and at an already-boundary-aligned range. -/
theorem adjustWordBoundaries_spec_witness :
    adjustWordBoundaries [cexWordRange] = [cexWordRange].map adjustWordBoundary1 ∧
    ((adjustWordBoundary1 cexWordRange).lnum = cexWordRange.lnum ∧
     (adjustWordBoundary1 cexWordRange).lineText = cexWordRange.lineText ∧
     (adjustWordBoundary1 cexWordRange).changeType = cexWordRange.changeType ∧
     (adjustWordBoundary1 cexWordRange).col.start ≤ cexWordRange.col.start ∧
     cexWordRange.col.stop ≤ (adjustWordBoundary1 cexWordRange).col.stop) ∧
    (cexGapRange.matchText.length ≤ 1 ∨ (wordStartBoundary cexGapRange ∧ wordEndBoundary cexGapRange)) ∧
    adjustWordBoundary1 cexGapRange = cexGapRange :=
  ⟨(adjustWordBoundaries_spec.1 [cexWordRange]),
   (adjustWordBoundaries_spec.2 cexWordRange).1,
   Or.inl (by decide),
   (adjustWordBoundaries_spec.2 cexGapRange).2.2 (Or.inl (by decide))⟩

/-! ## C9: the `Range` invariant across the adjustment stages -/

lemma substring_eq_drop_take (s : JStr) (a b : Nat) (hab : a ≤ b) (hb : b ≤ s.length) :
    JsStr.substring s a b = (s.take b).drop a := by
  simp only [JsStr.substring]
  rw [min_eq_left hb, min_eq_left (le_trans hab hb), max_eq_right hab, min_eq_left hab]

lemma substring_start (s : JStr) (b : Nat) (hb : b ≤ s.length) :
    JsStr.substring s 0 b = s.take b := by
  rw [substring_eq_drop_take s 0 b (Nat.zero_le _) hb, List.drop_zero]

lemma substring_to_end (s : JStr) (a : Nat) (ha : a ≤ s.length) :
    JsStr.substring s a s.length = s.drop a := by
  rw [substring_eq_drop_take s a s.length ha (le_refl _), List.take_length]

lemma substring_full (s : JStr) : JsStr.substring s 0 s.length = s := by
  rw [substring_start s s.length (le_refl _), List.take_length]

lemma mem_substring {s : JStr} {a b x : Nat} (h : x ∈ JsStr.substring s a b) : x ∈ s := by
  unfold JsStr.substring at h
  exact List.mem_of_mem_take (List.mem_of_mem_drop h)

lemma searchTrailWs_le (s : JStr) : searchTrailWs s ≤ s.length := by
  unfold searchTrailWs
  omega

/-- Newline adjustment is the identity on invariant ranges whose `lineText`
holds no newline (their `matchText`, a substring of the line, cannot begin or
end with one). -/
lemma adjustNewlineBoundaries_inv (rs : List Range)
    (h : ∀ r ∈ rs, RangeInv r ∧ 10 ∉ r.lineText) :
    ∀ r' ∈ adjustNewlineBoundaries rs, RangeInv r' := by
  intro r' hr'
  unfold adjustNewlineBoundaries at hr'
  obtain ⟨r, hr, hfr⟩ := List.mem_filterMap.mp hr'
  obtain ⟨hinv, hnl⟩ := h r hr
  have hnlm : 10 ∉ r.matchText := by
    intro hmem
    exact hnl (mem_substring (hinv.2.2 ▸ hmem))
  have h1 : ¬ r.matchText.getLast? = some 10 := by
    intro hl
    exact hnlm (List.mem_of_getLast?_eq_some hl)
  have h2 : ¬ (r.matchText.head? = some 10 ∧ r.lnum > 1) := by
    rintro ⟨hh, _⟩
    cases hm : r.matchText with
    | nil => rw [hm] at hh; simp at hh
    | cons c cs =>
      rw [hm] at hh
      simp at hh
      exact hnlm (hm ▸ (hh ▸ List.mem_cons_self _ _))
  rw [if_neg h1, if_neg h2] at hfr
  cases hfr
  exact hinv

/-- Word-boundary adjustment preserves the invariant. -/
lemma adjustWordBoundary1_inv (r : Range) (hinv : RangeInv r) :
    RangeInv (adjustWordBoundary1 r) := by
  unfold adjustWordBoundary1
  split_ifs with h1 h2 h3
  · exact hinv
  · exact hinv
  · exact hinv
  · refine ⟨?_, ?_, rfl⟩
    · exact le_trans (wordNewStart2_le r) (le_trans hinv.1 (wordNewEnd2_ge r))
    · exact wordNewEnd2_le r hinv.2.1

/-- The indentation branch, when it fires, yields an invariant range. -/
lemma handleWhitespaceIndent_inv (r r1 : Range)
    (h : handleWhitespaceIndent r = some r1) : RangeInv r1 := by
  unfold handleWhitespaceIndent at h
  split_ifs at h with hc0
  cases hidx : r.lineText.findIdx? (fun c => !wsChar c) with
  | some contentStart =>
    simp only [hidx] at h
    split_ifs at h with hcs
    have hlt : contentStart < r.lineText.length :=
      (List.findIdx?_eq_some_iff_findIdx_eq.mp hidx).1
    injection h with h2
    rw [← h2]
    exact ⟨Nat.zero_le _, le_of_lt hlt,
      (substring_start _ _ (le_of_lt hlt)).symm⟩
  | none => simp [hidx] at h

/-- The trailing-whitespace branch preserves the invariant. -/
lemma handleWhitespaceTrailing_inv (r : Range) (hinv : RangeInv r) :
    RangeInv (handleWhitespaceTrailing r) := by
  unfold handleWhitespaceTrailing
  split_ifs
  · exact ⟨searchTrailWs_le _, le_refl _,
      (substring_to_end _ _ (searchTrailWs_le _)).symm⟩
  · exact hinv
  · exact hinv

/-- Whitespace handling preserves the invariant. -/
lemma handleWhitespace1_inv (r : Range) (hinv : RangeInv r) :
    RangeInv (handleWhitespace1 r) := by
  unfold handleWhitespace1
  split_ifs with h1
  · exact hinv
  · cases hind : handleWhitespaceIndent r with
    | some r1 =>
      show RangeInv r1
      exact handleWhitespaceIndent_inv r r1 hind
    | none =>
      show RangeInv (handleWhitespaceTrailing r)
      exact handleWhitespaceTrailing_inv r hinv

/-- Full-line detection preserves the invariant. -/
lemma detectFullLine1_inv (ct : ChangeType) (r : Range) (hinv : RangeInv r) :
    RangeInv (detectFullLine1 ct r) := by
  unfold detectFullLine1
  split_ifs
  · exact hinv
  · exact ⟨Nat.zero_le _, le_refl _, (substring_full _).symm⟩
  · exact hinv

/-- `mergeLoop` preserves the invariant when equal-line ranges carry equal
`lineText`. -/
lemma mergeLoop_inv :
    ∀ (l : List Range) (current : Range),
      RangeInv current →
      (∀ x ∈ l, RangeInv x) →
      (∀ x ∈ l, x.lnum = current.lnum → x.lineText = current.lineText) →
      (∀ a ∈ l, ∀ b ∈ l, a.lnum = b.lnum → a.lineText = b.lineText) →
      ∀ r' ∈ mergeLoop current l, RangeInv r' := by
  intro l
  induction l with
  | nil =>
    intro current hc _ _ _ r' hr'
    unfold mergeLoop at hr'
    rcases List.mem_singleton.mp hr' with rfl
    exact hc
  | cons next rest ih =>
    intro current hc hall hline hpair r' hr'
    rw [mergeLoop] at hr'
    split_ifs at hr' with hcond
    · have hnextline : next.lineText = current.lineText :=
        hline next (List.mem_cons_self _ _) hcond.1.symm
      have hnewinv : RangeInv { current with
          col := Col.mk current.col.start (max current.col.stop next.col.stop)
          matchText := JsStr.substring current.lineText current.col.start
            (max current.col.stop next.col.stop) } := by
        refine ⟨?_, ?_, rfl⟩
        · exact le_trans hc.1 (le_max_left _ _)
        · exact max_le hc.2.1 (hnextline ▸ (hall next (List.mem_cons_self _ _)).2.1)
      exact ih _ hnewinv
        (fun x hx => hall x (List.mem_cons_of_mem _ hx))
        (fun x hx hxl => hline x (List.mem_cons_of_mem _ hx) hxl)
        (fun a ha b hb => hpair a (List.mem_cons_of_mem _ ha) b (List.mem_cons_of_mem _ hb))
        r' hr'
    · rcases List.mem_cons.mp hr' with rfl | hmem
      · exact hc
      · exact ih next (hall next (List.mem_cons_self _ _))
          (fun x hx => hall x (List.mem_cons_of_mem _ hx))
          (fun x hx hxl =>
            hpair x (List.mem_cons_of_mem _ hx) next (List.mem_cons_self _ _) hxl)
          (fun a ha b hb => hpair a (List.mem_cons_of_mem _ ha) b (List.mem_cons_of_mem _ hb))
          r' hmem

/-- C9 fails as stated: gap-filling expands the span of an interior column-0
range but keeps the stale `matchText`, so the output violates
`matchText == lineText.substring(col.start, col.end)`. -/
theorem rangeInvariant_gapfill_cex :
    RangeInv cexGapRange ∧
    fillRangeGaps [cexGapRange] 1 3 = [{ cexGapRange with col := Col.mk 0 3 }] ∧
    ({ cexGapRange with col := Col.mk 0 3 } : Range).matchText ≠
      JsStr.substring ({ cexGapRange with col := Col.mk 0 3 } : Range).lineText 0 3 := by
  refine ⟨⟨by decide, by decide, by decide⟩, by decide, by decide⟩

/-- C9 (amended): every adjustment stage (newline boundaries, word
boundaries, whitespace handling, full-line detection, overlap merge) maps
ranges satisfying the invariant `0 ≤ col.start ≤ col.end ≤ lineText.length ∧
matchText = lineText.substring(col.start, col.end)` to ranges satisfying it
(for the newline stage the line must contain no newline, as the line array
guarantees; for the merge stage equal-numbered lines must carry equal text);
gap-filling preserves only `0 ≤ col.start ≤ col.end` — it does not re-derive
`matchText` (see the counterexample). -/
theorem rangeInvariant_stages :
    (∀ rs : List Range,
      (∀ r ∈ rs, RangeInv r ∧ 10 ∉ r.lineText) →
      ∀ r' ∈ adjustNewlineBoundaries rs, RangeInv r') ∧
    (∀ rs : List Range, (∀ r ∈ rs, RangeInv r) →
      ∀ r' ∈ adjustWordBoundaries rs, RangeInv r') ∧
    (∀ rs : List Range, (∀ r ∈ rs, RangeInv r) →
      ∀ r' ∈ handleWhitespaceChanges rs, RangeInv r') ∧
    (∀ (rs : List Range) (ct : ChangeType), (∀ r ∈ rs, RangeInv r) →
      ∀ r' ∈ detectAndAdjustFullLineChange rs ct, RangeInv r') ∧
    (∀ rs : List Range, (∀ r ∈ rs, RangeInv r) →
      (∀ a ∈ rs, ∀ b ∈ rs, a.lnum = b.lnum → a.lineText = b.lineText) →
      ∀ r' ∈ mergeOverlappingRanges rs, RangeInv r') ∧
    (∀ (rs : List Range) (aboveLine belowLine : Nat),
      (∀ r ∈ rs, r.col.start ≤ r.col.stop) →
      ∀ r' ∈ fillRangeGaps rs aboveLine belowLine,
        r'.col.start ≤ r'.col.stop) := by
  refine ⟨adjustNewlineBoundaries_inv, ?_, ?_, ?_, ?_, ?_⟩
  · intro rs h r' hr'
    obtain ⟨r, hr, hfr⟩ := List.mem_map.mp hr'
    exact hfr ▸ adjustWordBoundary1_inv r (h r hr)
  · intro rs h r' hr'
    obtain ⟨r, hr, hfr⟩ := List.mem_map.mp hr'
    exact hfr ▸ handleWhitespace1_inv r (h r hr)
  · intro rs ct h r' hr'
    obtain ⟨r, hr, hfr⟩ := List.mem_map.mp hr'
    exact hfr ▸ detectFullLine1_inv ct r (h r hr)
  · intro rs hinv hpair r' hr'
    by_cases hlen : rs.length ≤ 1
    · unfold mergeOverlappingRanges at hr'
      rw [if_pos hlen] at hr'
      exact hinv r' hr'
    · have hperm : (rs.mergeSort rangeLe).Perm rs := List.mergeSort_perm rs rangeLe
      have hout : mergeOverlappingRanges rs =
          match rs.mergeSort rangeLe with
          | [] => []
          | c :: restS => mergeLoop c restS := by
        unfold mergeOverlappingRanges
        rw [if_neg hlen]
      cases hs : rs.mergeSort rangeLe with
      | nil =>
        rw [hout, hs] at hr'
        cases hr'
      | cons c restS =>
        rw [hout, hs] at hr'
        rw [hs] at hperm
        have hmemc : c ∈ rs := hperm.mem_iff.mp (List.mem_cons_self _ _)
        refine mergeLoop_inv restS c (hinv c hmemc) ?_ ?_ ?_ r' hr'
        · intro x hx
          exact hinv x (hperm.mem_iff.mp (List.mem_cons_of_mem _ hx))
        · intro x hx hxl
          exact hpair x (hperm.mem_iff.mp (List.mem_cons_of_mem _ hx)) c hmemc hxl
        · intro a ha b hb
          exact hpair a (hperm.mem_iff.mp (List.mem_cons_of_mem _ ha))
            b (hperm.mem_iff.mp (List.mem_cons_of_mem _ hb))
  · intro rs aboveLine belowLine h
    induction rs with
    | nil => intro r' hr'; simp [fillRangeGaps] at hr'
    | cons hd tl ih =>
      intro r' hr'
      have hstep : fillRangeGaps (hd :: tl) aboveLine belowLine =
          (if aboveLine < hd.lnum ∧ hd.lnum < belowLine ∧ hd.col.start = 0 then
            { hd with col := Col.mk 0 hd.lineText.length } ::
              fillRangeGaps tl aboveLine belowLine
          else if aboveLine < hd.lnum ∧ hd.lnum < belowLine ∧ hd.col.start ≠ 0 then
            hd :: fillRangeGaps tl aboveLine belowLine
          else if hd.lnum = aboveLine ∨ hd.lnum = belowLine then
            hd :: fillRangeGaps tl aboveLine belowLine
          else fillRangeGaps tl aboveLine belowLine) := by
        simp [fillRangeGaps]
      have htl : ∀ r ∈ tl, r.col.start ≤ r.col.stop :=
        fun r hr => h r (List.mem_cons_of_mem _ hr)
      rw [hstep] at hr'
      split_ifs at hr' with h1 h2 h3
      · rcases List.mem_cons.mp hr' with rfl | hmem
        · exact Nat.zero_le _
        · exact ih htl r' hmem
      · rcases List.mem_cons.mp hr' with rfl | hmem
        · exact h _ (List.mem_cons_self _ _)
        · exact ih htl r' hmem
      · rcases List.mem_cons.mp hr' with rfl | hmem
        · exact h _ (List.mem_cons_self _ _)
        · exact ih htl r' hmem
      · exact ih htl r' hr'

/-- Witness for the amended C9 at concrete one-range inputs for each stage. -/
theorem rangeInvariant_stages_witness :
    ((∀ r ∈ [cexGapRange], RangeInv r ∧ 10 ∉ r.lineText) ∧
      ∀ r' ∈ adjustNewlineBoundaries [cexGapRange], RangeInv r') ∧
    ((∀ r ∈ [cexWordRange], RangeInv r) ∧
      ∀ r' ∈ adjustWordBoundaries [cexWordRange], RangeInv r') ∧
    ((∀ r ∈ [cexGapRange], RangeInv r) ∧
      ∀ r' ∈ mergeOverlappingRanges [cexGapRange], RangeInv r') ∧
    ((∀ r ∈ [cexGapRange], r.col.start ≤ r.col.stop) ∧
      ∀ r' ∈ fillRangeGaps [cexGapRange] 1 3, r'.col.start ≤ r'.col.stop) :=
  ⟨⟨by decide, rangeInvariant_stages.1 [cexGapRange] (by decide)⟩,
   ⟨by decide, rangeInvariant_stages.2.1 [cexWordRange] (by decide)⟩,
   ⟨by decide, rangeInvariant_stages.2.2.2.2.1 [cexGapRange] (by decide) (by decide)⟩,
   ⟨by decide, rangeInvariant_stages.2.2.2.2.2 [cexGapRange] 1 3 (by decide)⟩⟩

/-! ## C1: executor call ordering for removal-only changes -/

/-- C1 fails as stated: a removal-only change (`"ab"` → `"a"`, whose edit
script has only a `removed` segment besides context) processed with command
`redo` takes the mutate-then-show path — the command-execute call is issued
strictly before the highlight-apply call. -/
theorem executorOrdering_cex :
    calculateDiff noDiff noDiff [] [97, 98] [97]
        cfgAllOn.thresholdLine cfgAllOn.thresholdChar =
      some ⟨[⟨[97], 1, false, false⟩, ⟨[98], 1, false, true⟩], ⟨1, 1⟩⟩ ∧
    ([⟨[97], 1, false, false⟩, ⟨[98], 1, false, true⟩] : List Change).any
      (fun c => c.removed) ∧
    ([⟨[97], 1, false, false⟩, ⟨[98], 1, false, true⟩] : List Change).all
      (fun c => !c.added) ∧
    (executeTrace noDiff noDiff [] cfgAllOn true (some removalOnlyState)
        Cmd.redo).findIdx? isExecEvent = some 0 ∧
    (executeTrace noDiff noDiff [] cfgAllOn true (some removalOnlyState)
        Cmd.redo).findIdx? isApplyEvent = some 1 := by
  refine ⟨by decide, by decide, by decide, by decide, by decide⟩

/-- C1 (amended): a change with removals processed with command `undo`,
removal highlighting enabled, and a nonempty gap-filled removal range list
produces exactly the trace: highlight-apply, a `config.duration` wait, the
command-execute call, then the highlight-clear call — apply strictly before
execute, execute strictly before clear, with the wait between apply and
execute.  (A removal-only `redo` runs the mutate-then-show flow instead; see
the counterexample.) -/
theorem executorOrdering_spec :
    ∀ (dc dl : JStr → JStr → List Change) (cache : List ((Int × Int) × DiffResult))
      (cfg : ExecConfig) (preCode postCode : JStr) (dr : DiffResult),
      calculateDiff dc dl cache preCode postCode
          cfg.thresholdLine cfg.thresholdChar = some dr →
      dr.changes.any (fun c => c.removed) = true →
      cfg.enabledRemoved = true →
      0 < (fillRangeGaps (computeRanges dr.changes preCode postCode ChangeType.removed)
            dr.lineInfo.aboveLine dr.lineInfo.belowLine).length →
      executeTrace dc dl cache cfg true (some (preCode, postCode)) Cmd.undo =
        [Event.applyHl cfg.highlightRemoved (convertRangesWithEncoding
           (fillRangeGaps (computeRanges dr.changes preCode postCode ChangeType.removed)
            dr.lineInfo.aboveLine dr.lineInfo.belowLine)),
         Event.waitMs cfg.duration, Event.execCmd Cmd.undo, Event.clearHl] := by
  intro dc dl cache cfg preCode postCode dr hdiff hrem hen hlen
  unfold executeTrace
  rw [if_neg (by simp)]
  simp only [hdiff]
  rw [if_pos ⟨trivial, hrem⟩]
  unfold applyHighlightsWithDelayedCommandTrace
  rw [if_pos hen, if_pos hlen]

/-- Witness for the amended C1 at the concrete removal-only `undo`
scenario. -/
theorem executorOrdering_spec_witness :
    calculateDiff noDiff noDiff [] [97, 98] [97]
        cfgAllOn.thresholdLine cfgAllOn.thresholdChar =
      some ⟨[⟨[97], 1, false, false⟩, ⟨[98], 1, false, true⟩], ⟨1, 1⟩⟩ ∧
    executeTrace noDiff noDiff [] cfgAllOn true (some ([97, 98], [97])) Cmd.undo =
      [Event.applyHl cfgAllOn.highlightRemoved (convertRangesWithEncoding
         (fillRangeGaps (computeRanges
            [⟨[97], 1, false, false⟩, ⟨[98], 1, false, true⟩] [97, 98] [97]
            ChangeType.removed) 1 1)),
       Event.waitMs cfgAllOn.duration, Event.execCmd Cmd.undo, Event.clearHl] :=
  ⟨by decide,
   executorOrdering_spec noDiff noDiff [] cfgAllOn [97, 98] [97]
     ⟨[⟨[97], 1, false, false⟩, ⟨[98], 1, false, true⟩], ⟨1, 1⟩⟩
     (by decide) (by decide) (by decide) (by decide)⟩
